import Mathlib

/-!
Verification of the ExpressionParser repository (Rust) against its
natural-language specification.

The development shallowly embeds the relevant source files:
  * src/scan/context.rs        : scanning positions and the four scan primitives
  * src/expression/value.rs    : ExpressionValue arithmetic (closed, NaN-propagating)
  * src/expression/node.rs     : the AST and the evaluator
  * src/expression/parse.rs    : the recursive-descent parser (fuel-indexed)
  * src/collection/link_list.rs: the persistent linked list with cached size
  * src/commute/helper.rs      : formatStringOperands from the commutation engine

Modelling conventions:
  * Rust strings are embedded as List Char; byte indices are tracked through
    Char.utf8Size exactly as the Rust code tracks them (the source only ever
    slices at positions it produced itself, which are character boundaries).
  * Rust i32 values are embedded as Int; where the source can overflow, the
    release-profile two's-complement wrapping is made explicit through wrap32.
    The one arithmetic operation that panics in every build profile, overflow
    of i32 division (i32::MIN / -1), is modelled as an explicit error value.
  * Rust f64 values are embedded as exact rationals; no claim settled here
    depends on floating-point rounding, only on which constructor results.
  * The mutually recursive parser is embedded with an explicit fuel argument;
    fuel exhaustion is the distinguished result none, and every theorem about
    the parser either quantifies over the fuel or supplies enough of it.
  * Rust panics (operand-index out of bounds, division overflow, unwrap of a
    None) are modelled as explicit error or none results, never as junk values
    on paths the source can actually reach.
-/

namespace ExprParser

/-! ### Byte-indexed character lists (embedding of Rust str slices) -/

/-- Total number of UTF-8 bytes of a character list, as Rust s.len(). -/
def byteLen (s : List Char) : Nat :=
  (s.map Char.utf8Size).sum

/-- Drop the prefix occupying n bytes, as the Rust slice s[n..].  The source
only slices at character boundaries it produced itself; on a non-boundary n
(where Rust would panic) this drops the partially covered character. -/
def byteDrop (s : List Char) (n : Nat) : List Char :=
  match s, n with
  | s, 0 => s
  | [], _ => []
  | c :: cs, n => byteDrop cs (n - c.utf8Size)

/-- Take the prefix occupying n bytes, as the Rust slice s[..n]. -/
def byteTake (s : List Char) (n : Nat) : List Char :=
  match s, n with
  | _, 0 => []
  | [], _ => []
  | c :: cs, n => c :: byteTake cs (n - c.utf8Size)

/-- The Rust slice s[a..b]. -/
def byteSlice (s : List Char) (a b : Nat) : List Char :=
  byteTake (byteDrop s a) (b - a)

/-- Number of newline characters in a list (used to state line counting). -/
def countNL (s : List Char) : Nat :=
  s.countP (fun c => c = '\n')

/-- Rust char::is_ascii_whitespace: space, tab, newline, form feed, carriage return. -/
def isAsciiWhitespace (c : Char) : Bool :=
  c = ' ' || c = '\t' || c = '\n' || c = Char.ofNat 12 || c = '\r'

/-- Rust char::is_ascii_digit. -/
def isAsciiDigit (c : Char) : Bool :=
  48 ≤ c.toNat && c.toNat ≤ 57

/-! ### src/scan/context.rs -/

/-- Embedding of struct ScanPosition (five usize counters). -/
structure ScanPosition where
  byte_index : Nat
  char_index : Nat
  line_index : Nat
  line_byte_index : Nat
  line_char_index : Nat
deriving DecidableEq, Repr

/-- Embedding of ScanPosition::default(). -/
def ScanPosition.start : ScanPosition :=
  ⟨0, 0, 0, 0, 0⟩

/-- Embedding of type ScanContext = (bool, ScanPosition). -/
abbrev ScanContext := Bool × ScanPosition

/-- The newline bookkeeping shared by all four scan primitives: executed when
the examined character is a newline, before the position is advanced past it. -/
def bumpLine (p : ScanPosition) : ScanPosition :=
  { p with
    line_index := p.line_index + 1
    line_byte_index := p.byte_index + 1
    line_char_index := p.char_index + 1 }

/-- Advance the position past one matched character (byte and char counters). -/
def bumpByte (p : ScanPosition) (c : Char) : ScanPosition :=
  { p with
    byte_index := p.byte_index + c.utf8Size
    char_index := p.char_index + 1 }

/-- Consume one character exactly as the scanners do: newline bookkeeping
first (when the character is a newline), then the byte/char advance. -/
def advanceChar (p : ScanPosition) (c : Char) : ScanPosition :=
  bumpByte (if c = '\n' then bumpLine p else p) c

/-- Consume a list of characters left to right. -/
def advanceMany (p : ScanPosition) (cs : List Char) : ScanPosition :=
  cs.foldl advanceChar p

/-- Loop body of scan_literal: walk the literal against the remaining source.
The newline bookkeeping uses the literal character and runs before the
equality test, exactly as in the source. -/
def scanLiteralAux (lit : List Char) (rest : List Char) (p : ScanPosition) :
    ScanContext :=
  match lit, rest with
  | [], _ => (true, p)
  | _ :: _, [] => (false, p)
  | ch :: lit, sch :: rest =>
      let p1 := if ch = '\n' then bumpLine p else p
      if ch = sch then scanLiteralAux lit rest (bumpByte p1 ch)
      else (false, p1)

/-- Embedding of scan_literal from src/scan/context.rs. -/
def scan_literal (s : List Char) (context : ScanContext) (lit : List Char) :
    ScanContext :=
  let (matched, position) := context
  if !matched || byteLen s < position.byte_index then (false, position)
  else scanLiteralAux lit (byteDrop s position.byte_index) position

/-- Loop body of scan_zero_or_more_chars. -/
def scanZeroOrMoreAux (test : Char → Bool) (rest : List Char)
    (p : ScanPosition) : ScanPosition :=
  match rest with
  | [] => p
  | c :: cs => if !(test c) then p else scanZeroOrMoreAux test cs (advanceChar p c)

/-- Embedding of scan_zero_or_more_chars from src/scan/context.rs. -/
def scan_zero_or_more_chars (s : List Char) (context : ScanContext)
    (test : Char → Bool) : ScanContext :=
  let (matched, position) := context
  if !matched || byteLen s < position.byte_index then (false, position)
  else (true, scanZeroOrMoreAux test (byteDrop s position.byte_index) position)

/-- Loop body of scan_one_or_more_chars, tracking the match count. -/
def scanOneOrMoreAux (test : Char → Bool) (rest : List Char)
    (p : ScanPosition) (mcount : Nat) : ScanContext :=
  match rest with
  | [] => (decide (0 < mcount), p)
  | c :: cs =>
      if !(test c) then (decide (0 < mcount), p)
      else scanOneOrMoreAux test cs (advanceChar p c) (mcount + 1)

/-- Embedding of scan_one_or_more_chars from src/scan/context.rs. -/
def scan_one_or_more_chars (s : List Char) (context : ScanContext)
    (test : Char → Bool) : ScanContext :=
  let (matched, position) := context
  if !matched || byteLen s < position.byte_index then (false, position)
  else scanOneOrMoreAux test (byteDrop s position.byte_index) position 0

/-- Loop body of scan_n_chars.  The newline bookkeeping runs before the
predicate test, exactly as in the source. -/
def scanNAux (test : Char → Bool) (n : Nat) (rest : List Char)
    (p : ScanPosition) (mcount : Nat) : ScanContext :=
  match rest with
  | [] => (decide (n = mcount), p)
  | c :: cs =>
      if mcount = n then (true, p)
      else
        let p1 := if c = '\n' then bumpLine p else p
        if test c then scanNAux test n cs (bumpByte p1 c) (mcount + 1)
        else (false, p1)

/-- Embedding of scan_n_chars from src/scan/context.rs. -/
def scan_n_chars (s : List Char) (context : ScanContext) (n : Nat)
    (test : Char → Bool) : ScanContext :=
  let (matched, position) := context
  if !matched || byteLen s < position.byte_index then (false, position)
  else scanNAux test n (byteDrop s position.byte_index) position 0

/-! ### Arithmetic of byte lengths and advanced positions -/

@[simp] theorem byteLen_nil : byteLen [] = 0 := rfl

@[simp] theorem byteLen_cons (c : Char) (cs : List Char) :
    byteLen (c :: cs) = c.utf8Size + byteLen cs := by
  simp [byteLen]

theorem byteLen_append (a b : List Char) :
    byteLen (a ++ b) = byteLen a + byteLen b := by
  induction a with
  | nil => simp
  | cons c cs ih => simp [ih]; omega

@[simp] theorem byteDrop_zero (s : List Char) : byteDrop s 0 = s := by
  cases s <;> rfl

@[simp] theorem byteTake_zero (s : List Char) : byteTake s 0 = [] := by
  cases s <;> rfl

theorem utf8Size_pos (c : Char) : 0 < c.utf8Size := by
  simp [Char.utf8Size]
  split <;> simp_all
  split <;> simp_all
  split <;> simp_all

theorem byteTake_append (w t : List Char) :
    byteTake (w ++ t) (byteLen w) = w := by
  induction w with
  | nil => simp
  | cons c cs ih =>
      have hpos := utf8Size_pos c
      show byteTake (c :: (cs ++ t)) (c.utf8Size + byteLen cs) = c :: cs
      rw [byteTake]
      · have h : c.utf8Size + byteLen cs - c.utf8Size = byteLen cs := by omega
        rw [h, ih]
      · intro hh; omega

theorem byteDrop_append (w t : List Char) :
    byteDrop (w ++ t) (byteLen w) = t := by
  induction w with
  | nil => simp
  | cons c cs ih =>
      have hpos := utf8Size_pos c
      show byteDrop (c :: (cs ++ t)) (c.utf8Size + byteLen cs) = t
      rw [byteDrop]
      · have h : c.utf8Size + byteLen cs - c.utf8Size = byteLen cs := by omega
        rw [h, ih]
      · intro hh; omega

@[simp] theorem advanceChar_byte (p : ScanPosition) (c : Char) :
    (advanceChar p c).byte_index = p.byte_index + c.utf8Size := by
  simp [advanceChar, bumpByte, bumpLine]
  split <;> rfl

@[simp] theorem advanceChar_char (p : ScanPosition) (c : Char) :
    (advanceChar p c).char_index = p.char_index + 1 := by
  simp [advanceChar, bumpByte, bumpLine]
  split <;> rfl

theorem advanceChar_line (p : ScanPosition) (c : Char) :
    (advanceChar p c).line_index =
      p.line_index + (if c = '\n' then 1 else 0) := by
  simp [advanceChar, bumpByte, bumpLine]
  split <;> simp

@[simp] theorem countNL_nil : countNL [] = 0 := rfl

@[simp] theorem countNL_cons (c : Char) (cs : List Char) :
    countNL (c :: cs) = (if c = '\n' then 1 else 0) + countNL cs := by
  by_cases h : c = '\n' <;>
    simp [countNL, List.countP_cons, h, Nat.add_comm]

theorem advanceMany_spec (cs : List Char) (p : ScanPosition) :
    (advanceMany p cs).byte_index = p.byte_index + byteLen cs ∧
    (advanceMany p cs).char_index = p.char_index + cs.length ∧
    (advanceMany p cs).line_index = p.line_index + countNL cs := by
  induction cs generalizing p with
  | nil => simp [advanceMany]
  | cons c cs ih =>
      have h := ih (advanceChar p c)
      simp only [advanceMany, List.foldl_cons] at h ⊢
      rcases h with ⟨h1, h2, h3⟩
      refine ⟨?_, ?_, ?_⟩
      · rw [h1, advanceChar_byte]; simp; omega
      · rw [h2, advanceChar_char]; simp; omega
      · rw [h3, advanceChar_line]; simp; omega

/-! ### Consumed-prefix characterizations of the scan loops -/

/-- The zero-or-more loop consumes a maximal matching prefix. -/
theorem scanZeroOrMoreAux_consumes (test : Char → Bool) :
    ∀ (rest : List Char) (p : ScanPosition),
    ∃ w t, rest = w ++ t ∧
      scanZeroOrMoreAux test rest p = advanceMany p w ∧
      (∀ c ∈ w, test c = true) ∧
      (t = [] ∨ ∃ c cs, t = c :: cs ∧ test c = false) := by
  intro rest
  induction rest with
  | nil =>
      intro p
      exact ⟨[], [], by simp, by simp [scanZeroOrMoreAux, advanceMany], by simp, .inl rfl⟩
  | cons c cs ih =>
      intro p
      by_cases hc : test c
      · obtain ⟨w, t, hsplit, hrun, hall, hstop⟩ := ih (advanceChar p c)
        refine ⟨c :: w, t, by simp [hsplit], ?_, ?_, hstop⟩
        · simp [scanZeroOrMoreAux, hc, advanceMany] at hrun ⊢
          exact hrun
        · intro x hx
          rcases List.mem_cons.mp hx with rfl | hx
          · exact hc
          · exact hall _ hx
      · refine ⟨[], c :: cs, by simp, ?_, by simp, .inr ⟨c, cs, rfl, by simpa using hc⟩⟩
        simp [scanZeroOrMoreAux, hc, advanceMany]

/-- The one-or-more loop consumes a maximal matching prefix; the flag records
whether at least one character matched. -/
theorem scanOneOrMoreAux_consumes (test : Char → Bool) :
    ∀ (rest : List Char) (p : ScanPosition) (k : Nat),
    ∃ w t, rest = w ++ t ∧
      scanOneOrMoreAux test rest p k =
        (decide (0 < k + w.length), advanceMany p w) ∧
      (∀ c ∈ w, test c = true) := by
  intro rest
  induction rest with
  | nil =>
      intro p k
      exact ⟨[], [], by simp, by simp [scanOneOrMoreAux, advanceMany], by simp⟩
  | cons c cs ih =>
      intro p k
      by_cases hc : test c
      · obtain ⟨w, t, hsplit, hrun, hall⟩ := ih (advanceChar p c) (k + 1)
        refine ⟨c :: w, t, by simp [hsplit], ?_, ?_⟩
        · have hgoal : scanOneOrMoreAux test (c :: cs) p k =
              scanOneOrMoreAux test cs (advanceChar p c) (k + 1) := by
            simp [scanOneOrMoreAux, hc]
          rw [hgoal, hrun]
          have h1 : k + 1 + w.length = k + (c :: w).length := by simp; omega
          rw [h1]
          rfl
        · intro x hx
          rcases List.mem_cons.mp hx with rfl | hx
          · exact hc
          · exact hall _ hx
      · refine ⟨[], c :: cs, by simp, ?_, by simp⟩
        simp [scanOneOrMoreAux, hc, advanceMany]

/-- On success the literal loop consumes exactly the literal, which then is a
prefix of the remaining input. -/
theorem scanLiteralAux_success (lit : List Char) :
    ∀ (rest : List Char) (p q : ScanPosition),
    scanLiteralAux lit rest p = (true, q) →
    ∃ t, rest = lit ++ t ∧ q = advanceMany p lit := by
  induction lit with
  | nil =>
      intro rest p q h
      simp [scanLiteralAux] at h
      exact ⟨rest, by simp, by simp [advanceMany, h]⟩
  | cons ch lit ih =>
      intro rest p q h
      match rest with
      | [] => simp [scanLiteralAux] at h
      | sch :: rest =>
          simp only [scanLiteralAux] at h
          by_cases hc : ch = sch
          · rw [if_pos hc] at h
            obtain ⟨t, hsplit, hq⟩ := ih rest _ q h
            subst hc
            refine ⟨t, by simp [hsplit], ?_⟩
            rw [hq]
            simp [advanceMany, advanceChar]
          · rw [if_neg hc] at h
            simp at h

/-- On success the n-char loop consumes a matching prefix. -/
theorem scanNAux_success (test : Char → Bool) (n : Nat) :
    ∀ (rest : List Char) (p q : ScanPosition) (k : Nat),
    scanNAux test n rest p k = (true, q) →
    ∃ w t, rest = w ++ t ∧ q = advanceMany p w ∧ (∀ c ∈ w, test c = true) := by
  intro rest
  induction rest with
  | nil =>
      intro p q k h
      simp [scanNAux] at h
      exact ⟨[], [], by simp, by simp [advanceMany, h.2], by simp⟩
  | cons c cs ih =>
      intro p q k h
      simp only [scanNAux] at h
      by_cases hk : k = n
      · rw [if_pos hk] at h
        simp at h
        exact ⟨[], c :: cs, by simp, by simp [advanceMany, h], by simp⟩
      · rw [if_neg hk] at h
        by_cases hc : test c
        · rw [if_pos hc] at h
          obtain ⟨w, t, hsplit, hq, hall⟩ := ih _ q (k + 1) h
          refine ⟨c :: w, t, by simp [hsplit], ?_, ?_⟩
          · rw [hq]; simp [advanceMany, advanceChar]
          · intro x hx
            rcases List.mem_cons.mp hx with rfl | hx
            · exact hc
            · exact hall _ hx
        · rw [if_neg hc] at h
          simp at h

/-- Consumed prefix determines the byte slice between old and new position. -/
theorem byteSlice_consumed (s : List Char) (p : ScanPosition) (w t : List Char)
    (hd : byteDrop s p.byte_index = w ++ t) :
    byteSlice s p.byte_index (p.byte_index + byteLen w) = w := by
  simp only [byteSlice, hd, Nat.add_sub_cancel_left]
  exact byteTake_append w t

/-- Package of the line-counting facts for a scan that consumed the prefix w
of the remaining input. -/
theorem line_count_of_consumed (s : List Char) (p : ScanPosition)
    (w t : List Char) (hd : byteDrop s p.byte_index = w ++ t) :
    (advanceMany p w).line_index =
      p.line_index +
        countNL (byteSlice s p.byte_index (advanceMany p w).byte_index) ∧
    p.byte_index ≤ (advanceMany p w).byte_index := by
  obtain ⟨hb, _, hl⟩ := advanceMany_spec w p
  rw [hb, byteSlice_consumed s p w t hd]
  exact ⟨hl, Nat.le_add_right _ _⟩

/-- Claim C9 (corrected).  For each scan primitive, on every outcome with
result flag or on every successful outcome as indicated, the line counter of
the returned position minus the line counter of the input position equals the
number of newline characters in the span of the source consumed by the scan:
this holds on all outcomes for scan_zero_or_more_chars and
scan_one_or_more_chars, and on successful outcomes for scan_literal and
scan_n_chars (on their failures the line counter can count a newline that was
not consumed; see the counterexample). -/
theorem C9_scan_line_counters :
    (∀ (s : List Char) (p q : ScanPosition) (lit : List Char),
        scan_literal s (true, p) lit = (true, q) →
        q.line_index =
          p.line_index + countNL (byteSlice s p.byte_index q.byte_index) ∧
        p.byte_index ≤ q.byte_index) ∧
    (∀ (s : List Char) (p q : ScanPosition) (test : Char → Bool) (m : Bool),
        scan_zero_or_more_chars s (true, p) test = (m, q) →
        q.line_index =
          p.line_index + countNL (byteSlice s p.byte_index q.byte_index) ∧
        p.byte_index ≤ q.byte_index) ∧
    (∀ (s : List Char) (p q : ScanPosition) (test : Char → Bool) (m : Bool),
        scan_one_or_more_chars s (true, p) test = (m, q) →
        q.line_index =
          p.line_index + countNL (byteSlice s p.byte_index q.byte_index) ∧
        p.byte_index ≤ q.byte_index) ∧
    (∀ (s : List Char) (p q : ScanPosition) (n : Nat) (test : Char → Bool),
        scan_n_chars s (true, p) n test = (true, q) →
        q.line_index =
          p.line_index + countNL (byteSlice s p.byte_index q.byte_index) ∧
        p.byte_index ≤ q.byte_index) := by
  have hempty : ∀ (s : List Char) (p : ScanPosition),
      byteSlice s p.byte_index p.byte_index = [] := by
    intro s p
    simp [byteSlice]
  refine ⟨?_, ?_, ?_, ?_⟩
  · intro s p q lit h
    simp only [scan_literal] at h
    by_cases hr : byteLen s < p.byte_index
    · simp [hr] at h
    · simp only [hr, Bool.not_true, Bool.false_or, if_false] at h
      obtain ⟨t, hsplit, hq⟩ := scanLiteralAux_success lit _ p q h
      subst hq
      exact line_count_of_consumed s p lit t hsplit
  · intro s p q test m h
    by_cases hr : byteLen s < p.byte_index
    · have hw : scan_zero_or_more_chars s (true, p) test = (false, p) := by
        simp [scan_zero_or_more_chars, hr]
      rw [hw] at h
      cases h
      rw [hempty]
      simp
    · obtain ⟨w, t, hsplit, hrun, _, _⟩ := scanZeroOrMoreAux_consumes test
        (byteDrop s p.byte_index) p
      have hw : scan_zero_or_more_chars s (true, p) test =
          (true, advanceMany p w) := by
        simp [scan_zero_or_more_chars, hr, hrun]
      rw [hw] at h
      cases h
      exact line_count_of_consumed s p w t hsplit
  · intro s p q test m h
    by_cases hr : byteLen s < p.byte_index
    · have hw : scan_one_or_more_chars s (true, p) test = (false, p) := by
        simp [scan_one_or_more_chars, hr]
      rw [hw] at h
      cases h
      rw [hempty]
      simp
    · obtain ⟨w, t, hsplit, hrun, _⟩ := scanOneOrMoreAux_consumes test
        (byteDrop s p.byte_index) p 0
      have hw : scan_one_or_more_chars s (true, p) test =
          (decide (0 < 0 + w.length), advanceMany p w) := by
        simp only [scan_one_or_more_chars, Bool.not_true, Bool.false_or]
        rw [if_neg (by simpa using hr)]
        exact hrun
      rw [hw] at h
      cases h
      exact line_count_of_consumed s p w t hsplit
  · intro s p q n test h
    simp only [scan_n_chars] at h
    by_cases hr : byteLen s < p.byte_index
    · simp [hr] at h
    · simp only [hr, Bool.not_true, Bool.false_or, if_false] at h
      obtain ⟨w, t, hsplit, hq, _⟩ := scanNAux_success test n _ p q 0 h
      rw [hq]
      exact line_count_of_consumed s p w t hsplit

/-- Witness for claim C9: the amended theorem applied to the concrete scan of
the literal containing a newline over the source it matches. -/
theorem C9_scan_line_counters_witness :
    (⟨3, 3, 1, 2, 2⟩ : ScanPosition).line_index =
      ScanPosition.start.line_index +
        countNL (byteSlice ['a', '\n', 'b'] ScanPosition.start.byte_index
          (⟨3, 3, 1, 2, 2⟩ : ScanPosition).byte_index) ∧
    ScanPosition.start.byte_index ≤ (⟨3, 3, 1, 2, 2⟩ : ScanPosition).byte_index :=
  C9_scan_line_counters.1 ['a', '\n', 'b'] ScanPosition.start ⟨3, 3, 1, 2, 2⟩
    ['a', '\n', 'b'] (by decide)

/-- Counterexample for claim C9 as stated: a failing scan_literal whose
literal begins with a newline increments the line counter although the scan
consumed nothing.  Scanning the literal consisting of one newline over the
source consisting of the letter x fails without advancing the byte index,
yet the returned line counter is 1 while the consumed span holds no newline. -/
theorem C9_scan_line_counters_counterexample :
    scan_literal ['x'] (true, ScanPosition.start) ['\n'] =
      (false, ⟨0, 0, 1, 1, 1⟩) ∧
    (⟨0, 0, 1, 1, 1⟩ : ScanPosition).line_index ≠
      ScanPosition.start.line_index +
        countNL (byteSlice ['x'] ScanPosition.start.byte_index
          (⟨0, 0, 1, 1, 1⟩ : ScanPosition).byte_index) := by
  constructor
  · decide
  · decide

/-! ### src/expression/value.rs -/

/-- Two's-complement wrap to the i32 range, the release-profile behavior of
Rust integer addition, subtraction, multiplication and negation. -/
def wrap32 (z : Int) : Int :=
  (z + 2 ^ 31) % 2 ^ 32 - 2 ^ 31

/-- Embedding of enum SignType. -/
inductive SignType where
  | Negative : SignType
  | Positive : SignType
deriving DecidableEq, Repr

/-- Embedding of enum ExpressionValue.  DecimalType (f64) is embedded as the
exact rationals; no settled claim depends on floating-point rounding.
IntegerType (i32) is embedded as Int with explicit wrapping where the source
can overflow. -/
inductive ExpressionValue where
  | NaN : ExpressionValue
  | Decimal : Rat → ExpressionValue
  | Integer : Int → ExpressionValue
deriving DecidableEq, Repr

namespace ExpressionValue

/-- Embedding of impl Add for &ExpressionValue. -/
def add : ExpressionValue → ExpressionValue → ExpressionValue
  | NaN, _ => NaN
  | Decimal _, NaN => NaN
  | Decimal a, Decimal b => Decimal (a + b)
  | Decimal a, Integer b => Decimal (a + mkRat b 1)
  | Integer _, NaN => NaN
  | Integer a, Decimal b => Decimal (mkRat a 1 + b)
  | Integer a, Integer b => Integer (wrap32 (a + b))

/-- Embedding of impl Sub for &ExpressionValue. -/
def sub : ExpressionValue → ExpressionValue → ExpressionValue
  | NaN, _ => NaN
  | Decimal _, NaN => NaN
  | Decimal a, Decimal b => Decimal (a - b)
  | Decimal a, Integer b => Decimal (a - mkRat b 1)
  | Integer _, NaN => NaN
  | Integer a, Decimal b => Decimal (mkRat a 1 - b)
  | Integer a, Integer b => Integer (wrap32 (a - b))

/-- Embedding of impl Mul for &ExpressionValue. -/
def mul : ExpressionValue → ExpressionValue → ExpressionValue
  | NaN, _ => NaN
  | Decimal _, NaN => NaN
  | Decimal a, Decimal b => Decimal (a * b)
  | Decimal a, Integer b => Decimal (a * mkRat b 1)
  | Integer _, NaN => NaN
  | Integer a, Decimal b => Decimal (mkRat a 1 * b)
  | Integer a, Integer b => Integer (wrap32 (a * b))

end ExpressionValue

/-- The runtime failures the evaluator can actually hit: an out-of-bounds
operand access (operands[0] of an empty chain node) and the overflow of i32
division (i32::MIN / -1), which panics in every Rust build profile. -/
inductive EvalPanic where
  | index : EvalPanic
  | divOverflow : EvalPanic
deriving DecidableEq, Repr

namespace ExpressionValue

/-- Embedding of impl Div for &ExpressionValue.  A zero divisor (integer 0 or
decimal 0.0) yields NaN before any division happens; the only division that
can run is i32 division, which panics exactly on i32::MIN / -1 (modelled as
the divOverflow error).  Rust i32 division truncates toward zero (Int.tdiv). -/
def div : ExpressionValue → ExpressionValue → Except EvalPanic ExpressionValue
  | NaN, _ => .ok NaN
  | Decimal _, NaN => .ok NaN
  | Decimal a, Decimal b =>
      if b = 0 then .ok NaN else .ok (Decimal (a / b))
  | Decimal a, Integer b =>
      if b = 0 then .ok NaN else .ok (Decimal (a / mkRat b 1))
  | Integer _, NaN => .ok NaN
  | Integer a, Decimal b =>
      if b = 0 then .ok NaN else .ok (Decimal (mkRat a 1 / b))
  | Integer a, Integer b =>
      if b = 0 then .ok NaN
      else if a = -(2 ^ 31) ∧ b = -1 then .error .divOverflow
      else .ok (Integer (Int.tdiv a b))

/-- Embedding of impl Mul of ExpressionValue by SignType (Parenthesis sign).
Negation of i32::MIN wraps in the release profile. -/
def signMul (sign : SignType) : ExpressionValue → ExpressionValue
  | NaN => NaN
  | Decimal v => match sign with
      | .Negative => Decimal (-v)
      | .Positive => Decimal v
  | Integer v => match sign with
      | .Negative => Integer (wrap32 (-v))
      | .Positive => Integer v

/-- Rational power with a natural exponent, written so that it reduces in
the kernel (numerator and denominator powers are integer and natural powers). -/
def ratPowNat (a : Rat) (n : Nat) : Rat :=
  mkRat (Int.pow a.num n) (Nat.pow a.den n)

/-- Modelled from the spec: the f64 pow of the Power evaluation rule,
restricted to the integral exponents the settled claims exercise; a
non-integral exponent is outside every claim and is mapped to 0 here. -/
def decPow (a b : Rat) : Rat :=
  if b.den = 1 then
    if 0 ≤ b.num then ratPowNat a b.num.toNat
    else (ratPowNat a (-b.num).toNat)⁻¹
  else 0

/-- Modelled from the spec: the trait Power for ExpressionValue is imported
by src/expression/node.rs from the value module but its implementation is
absent from src/.  Following section 4.4 of the spec and the power tests in
src/expression/parse.rs: NaN absorbs; two integers use integer exponentiation
with a negative exponent yielding Integer 0; otherwise both operands are
promoted to decimal and pow is applied. -/
def power : ExpressionValue → ExpressionValue → ExpressionValue
  | NaN, _ => NaN
  | _, NaN => NaN
  | Integer a, Integer b =>
      if b < 0 then Integer 0 else Integer (wrap32 (Int.pow a b.toNat))
  | Decimal a, Decimal b => Decimal (decPow a b)
  | Decimal a, Integer b => Decimal (decPow a (mkRat b 1))
  | Integer a, Decimal b => Decimal (decPow (mkRat a 1) b)

end ExpressionValue

/-! ### src/expression/position.rs and src/expression/node.rs -/

/-- Embedding of struct ParsePosition. -/
structure ParsePosition where
  start : ScanPosition
  stop : ScanPosition
deriving DecidableEq, Repr

/-- Embedding of ParsePosition::default(). -/
def ParsePosition.origin : ParsePosition :=
  ⟨ScanPosition.start, ScanPosition.start⟩

/-- Embedding of enum ExpressionNode. -/
inductive ExpressionNode where
  | NaN : ExpressionNode
  | Integer : ParsePosition → Int → ExpressionNode
  | Decimal : ParsePosition → Rat → ExpressionNode
  | Parenthesis : ParsePosition → SignType → ExpressionNode → ExpressionNode
  | Sum : ParsePosition → List ExpressionNode → ExpressionNode
  | Difference : ParsePosition → List ExpressionNode → ExpressionNode
  | Product : ParsePosition → List ExpressionNode → ExpressionNode
  | Quotient : ParsePosition → List ExpressionNode → ExpressionNode
  | Power : ParsePosition → ExpressionNode → ExpressionNode → ExpressionNode
deriving Repr

mutual

/-- Embedding of Evaluate::evaluate from src/expression/node.rs.  The Rust
code reads operands[0] of each chain node, which panics on an empty operand
list (error index), and folds the remaining operands left to right with the
value operations; division can panic on i32 overflow (error divOverflow). -/
def evaluate : ExpressionNode → Except EvalPanic ExpressionValue
  | .NaN => .ok .NaN
  | .Integer _ v => .ok (.Integer v)
  | .Decimal _ v => .ok (.Decimal v)
  | .Parenthesis _ sign inner => do
      let v ← evaluate inner
      pure (ExpressionValue.signMul sign v)
  | .Sum _ operands =>
      match operands with
      | [] => .error .index
      | x :: rest => do
          let v ← evaluate x
          evalSumRest rest v
  | .Difference _ operands =>
      match operands with
      | [] => .error .index
      | x :: rest => do
          let v ← evaluate x
          evalDiffRest rest v
  | .Product _ operands =>
      match operands with
      | [] => .error .index
      | x :: rest => do
          let v ← evaluate x
          evalProdRest rest v
  | .Quotient _ operands =>
      match operands with
      | [] => .error .index
      | x :: rest => do
          let v ← evaluate x
          evalQuotRest rest v
  | .Power _ base exponent => do
      let b ← evaluate base
      let e ← evaluate exponent
      pure (ExpressionValue.power b e)

/-- Left fold of the Sum arm (sum += addend.evaluate()). -/
def evalSumRest : List ExpressionNode → ExpressionValue →
    Except EvalPanic ExpressionValue
  | [], acc => .ok acc
  | y :: ys, acc => do
      let v ← evaluate y
      evalSumRest ys (ExpressionValue.add acc v)

/-- Left fold of the Difference arm. -/
def evalDiffRest : List ExpressionNode → ExpressionValue →
    Except EvalPanic ExpressionValue
  | [], acc => .ok acc
  | y :: ys, acc => do
      let v ← evaluate y
      evalDiffRest ys (ExpressionValue.sub acc v)

/-- Left fold of the Product arm. -/
def evalProdRest : List ExpressionNode → ExpressionValue →
    Except EvalPanic ExpressionValue
  | [], acc => .ok acc
  | y :: ys, acc => do
      let v ← evaluate y
      evalProdRest ys (ExpressionValue.mul acc v)

/-- Left fold of the Quotient arm; the division itself can fail. -/
def evalQuotRest : List ExpressionNode → ExpressionValue →
    Except EvalPanic ExpressionValue
  | [], acc => .ok acc
  | y :: ys, acc => do
      let v ← evaluate y
      let q ← ExpressionValue.div acc v
      evalQuotRest ys q

end

mutual

/-- Every chain node in the tree has at least one operand. -/
def chainNonempty : ExpressionNode → Bool
  | .NaN => true
  | .Integer _ _ => true
  | .Decimal _ _ => true
  | .Parenthesis _ _ inner => chainNonempty inner
  | .Sum _ ops => !ops.isEmpty && chainNonemptyList ops
  | .Difference _ ops => !ops.isEmpty && chainNonemptyList ops
  | .Product _ ops => !ops.isEmpty && chainNonemptyList ops
  | .Quotient _ ops => !ops.isEmpty && chainNonemptyList ops
  | .Power _ b e => chainNonempty b && chainNonempty e

/-- List form of chainNonempty. -/
def chainNonemptyList : List ExpressionNode → Bool
  | [] => true
  | x :: xs => chainNonempty x && chainNonemptyList xs

end

@[simp] theorem except_bind_ok {α β ε : Type} (a : α) (f : α → Except ε β) :
    (Except.ok a >>= f) = f a := rfl

@[simp] theorem except_bind_error {α β ε : Type} (e : ε) (f : α → Except ε β) :
    ((Except.error e : Except ε α) >>= f) = Except.error e := rfl

@[simp] theorem except_pure_eq {α ε : Type} (a : α) :
    (pure a : Except ε α) = Except.ok a := rfl

/-- The division of values never hits the operand-index panic: its only
failure is the i32 division overflow. -/
theorem div_total_cases (a b : ExpressionValue) :
    (∃ q, a.div b = .ok q) ∨ a.div b = .error .divOverflow := by
  cases a <;> cases b <;> simp only [ExpressionValue.div] <;> repeat' split
  all_goals first
    | exact .inl ⟨_, rfl⟩
    | exact .inr rfl

mutual

/-- The evaluator is total on trees whose chain nodes are nonempty, except
for the explicit i32 division overflow. -/
theorem evaluate_total (t : ExpressionNode) (h : chainNonempty t = true) :
    (∃ v, evaluate t = .ok v) ∨ evaluate t = .error .divOverflow := by
  cases t with
  | NaN => exact .inl ⟨_, rfl⟩
  | Integer p v => exact .inl ⟨_, rfl⟩
  | Decimal p v => exact .inl ⟨_, rfl⟩
  | Parenthesis p sign inner =>
      have h' : chainNonempty inner = true := by
        simpa [chainNonempty] using h
      rcases evaluate_total inner h' with ⟨v, hv⟩ | hv
      · exact .inl ⟨ExpressionValue.signMul sign v, by simp [evaluate, hv]⟩
      · exact .inr (by simp [evaluate, hv])
  | Sum p ops =>
      cases ops with
      | nil => simp [chainNonempty] at h
      | cons x rest =>
          have hx : chainNonempty x = true ∧ chainNonemptyList rest = true := by
            simpa [chainNonempty, chainNonemptyList, Bool.and_eq_true] using h
          rcases evaluate_total x hx.1 with ⟨v, hv⟩ | hv
          · rcases evalSumRest_total rest v hx.2 with ⟨w, hw⟩ | hw
            · exact .inl ⟨w, by simp [evaluate, hv, hw]⟩
            · exact .inr (by simp [evaluate, hv, hw])
          · exact .inr (by simp [evaluate, hv])
  | Difference p ops =>
      cases ops with
      | nil => simp [chainNonempty] at h
      | cons x rest =>
          have hx : chainNonempty x = true ∧ chainNonemptyList rest = true := by
            simpa [chainNonempty, chainNonemptyList, Bool.and_eq_true] using h
          rcases evaluate_total x hx.1 with ⟨v, hv⟩ | hv
          · rcases evalDiffRest_total rest v hx.2 with ⟨w, hw⟩ | hw
            · exact .inl ⟨w, by simp [evaluate, hv, hw]⟩
            · exact .inr (by simp [evaluate, hv, hw])
          · exact .inr (by simp [evaluate, hv])
  | Product p ops =>
      cases ops with
      | nil => simp [chainNonempty] at h
      | cons x rest =>
          have hx : chainNonempty x = true ∧ chainNonemptyList rest = true := by
            simpa [chainNonempty, chainNonemptyList, Bool.and_eq_true] using h
          rcases evaluate_total x hx.1 with ⟨v, hv⟩ | hv
          · rcases evalProdRest_total rest v hx.2 with ⟨w, hw⟩ | hw
            · exact .inl ⟨w, by simp [evaluate, hv, hw]⟩
            · exact .inr (by simp [evaluate, hv, hw])
          · exact .inr (by simp [evaluate, hv])
  | Quotient p ops =>
      cases ops with
      | nil => simp [chainNonempty] at h
      | cons x rest =>
          have hx : chainNonempty x = true ∧ chainNonemptyList rest = true := by
            simpa [chainNonempty, chainNonemptyList, Bool.and_eq_true] using h
          rcases evaluate_total x hx.1 with ⟨v, hv⟩ | hv
          · rcases evalQuotRest_total rest v hx.2 with ⟨w, hw⟩ | hw
            · exact .inl ⟨w, by simp [evaluate, hv, hw]⟩
            · exact .inr (by simp [evaluate, hv, hw])
          · exact .inr (by simp [evaluate, hv])
  | Power p b e =>
      have hb : chainNonempty b = true ∧ chainNonempty e = true := by
        simpa [chainNonempty, Bool.and_eq_true] using h
      rcases evaluate_total b hb.1 with ⟨v, hv⟩ | hv
      · rcases evaluate_total e hb.2 with ⟨w, hw⟩ | hw
        · exact .inl ⟨v.power w, by simp [evaluate, hv, hw]⟩
        · exact .inr (by simp [evaluate, hv, hw])
      · exact .inr (by simp [evaluate, hv])

/-- Totality of the Sum fold. -/
theorem evalSumRest_total (ys : List ExpressionNode) (acc : ExpressionValue)
    (h : chainNonemptyList ys = true) :
    (∃ v, evalSumRest ys acc = .ok v) ∨
      evalSumRest ys acc = .error .divOverflow := by
  cases ys with
  | nil => exact .inl ⟨_, rfl⟩
  | cons y ys =>
      have hy : chainNonempty y = true ∧ chainNonemptyList ys = true := by
        simpa [chainNonemptyList, Bool.and_eq_true] using h
      rcases evaluate_total y hy.1 with ⟨v, hv⟩ | hv
      · rcases evalSumRest_total ys (acc.add v) hy.2 with ⟨w, hw⟩ | hw
        · exact .inl ⟨w, by simp [evalSumRest, hv, hw]⟩
        · exact .inr (by simp [evalSumRest, hv, hw])
      · exact .inr (by simp [evalSumRest, hv])

/-- Totality of the Difference fold. -/
theorem evalDiffRest_total (ys : List ExpressionNode) (acc : ExpressionValue)
    (h : chainNonemptyList ys = true) :
    (∃ v, evalDiffRest ys acc = .ok v) ∨
      evalDiffRest ys acc = .error .divOverflow := by
  cases ys with
  | nil => exact .inl ⟨_, rfl⟩
  | cons y ys =>
      have hy : chainNonempty y = true ∧ chainNonemptyList ys = true := by
        simpa [chainNonemptyList, Bool.and_eq_true] using h
      rcases evaluate_total y hy.1 with ⟨v, hv⟩ | hv
      · rcases evalDiffRest_total ys (acc.sub v) hy.2 with ⟨w, hw⟩ | hw
        · exact .inl ⟨w, by simp [evalDiffRest, hv, hw]⟩
        · exact .inr (by simp [evalDiffRest, hv, hw])
      · exact .inr (by simp [evalDiffRest, hv])

/-- Totality of the Product fold. -/
theorem evalProdRest_total (ys : List ExpressionNode) (acc : ExpressionValue)
    (h : chainNonemptyList ys = true) :
    (∃ v, evalProdRest ys acc = .ok v) ∨
      evalProdRest ys acc = .error .divOverflow := by
  cases ys with
  | nil => exact .inl ⟨_, rfl⟩
  | cons y ys =>
      have hy : chainNonempty y = true ∧ chainNonemptyList ys = true := by
        simpa [chainNonemptyList, Bool.and_eq_true] using h
      rcases evaluate_total y hy.1 with ⟨v, hv⟩ | hv
      · rcases evalProdRest_total ys (acc.mul v) hy.2 with ⟨w, hw⟩ | hw
        · exact .inl ⟨w, by simp [evalProdRest, hv, hw]⟩
        · exact .inr (by simp [evalProdRest, hv, hw])
      · exact .inr (by simp [evalProdRest, hv])

/-- Totality of the Quotient fold: the division step can add its own
overflow failure. -/
theorem evalQuotRest_total (ys : List ExpressionNode) (acc : ExpressionValue)
    (h : chainNonemptyList ys = true) :
    (∃ v, evalQuotRest ys acc = .ok v) ∨
      evalQuotRest ys acc = .error .divOverflow := by
  cases ys with
  | nil => exact .inl ⟨_, rfl⟩
  | cons y ys =>
      have hy : chainNonempty y = true ∧ chainNonemptyList ys = true := by
        simpa [chainNonemptyList, Bool.and_eq_true] using h
      rcases evaluate_total y hy.1 with ⟨v, hv⟩ | hv
      · rcases div_total_cases acc v with ⟨q, hq⟩ | hq
        · rcases evalQuotRest_total ys q hy.2 with ⟨w, hw⟩ | hw
          · exact .inl ⟨w, by simp [evalQuotRest, hv, hq, hw]⟩
          · exact .inr (by simp [evalQuotRest, hv, hq, hw])
        · exact .inr (by simp [evalQuotRest, hv, hq])
      · exact .inr (by simp [evalQuotRest, hv])

end

/-- Claim C1 (corrected).  For every ExpressionNode whose Sum, Difference,
Product and Quotient nodes each have at least one operand, evaluate returns
an ExpressionValue except when an integer division computes i32::MIN / -1,
the one Rust arithmetic operation here that panics in every build profile
(integer addition, subtraction, multiplication and negation wrap in the
release profile and are embedded as wrapping).  The original claim, which
also covered client-constructed trees with empty chain nodes and unrestricted
integer divisions, fails; see the counterexample. -/
theorem C1_evaluate_amended (t : ExpressionNode)
    (h : chainNonempty t = true) :
    (∃ v, evaluate t = .ok v) ∨ evaluate t = .error .divOverflow :=
  evaluate_total t h

/-- Witness for claim C1: the amended theorem applied to an integer leaf. -/
theorem C1_evaluate_amended_witness :
    (∃ v, evaluate (.Integer ParsePosition.origin 5) = .ok v) ∨
      evaluate (.Integer ParsePosition.origin 5) = .error .divOverflow :=
  C1_evaluate_amended (.Integer ParsePosition.origin 5) (by decide)

/-- Counterexample for claim C1 as stated: a client-constructed Sum node
with an empty operand list makes evaluate read operands[0] out of bounds
(a Rust index panic), and a Quotient dividing i32::MIN by -1 makes the i32
division overflow (a Rust panic in every build profile). -/
theorem C1_evaluate_counterexample :
    evaluate (.Sum ParsePosition.origin []) = .error .index ∧
    evaluate (.Quotient ParsePosition.origin
      [.Integer ParsePosition.origin (-(2 ^ 31)),
       .Integer ParsePosition.origin (-1)]) = .error .divOverflow := by
  constructor
  · rfl
  · rfl

/-- Claim C2 (confirmed).  For every pair of ExpressionValues, each of the
four value operators returns NaN whenever either operand is NaN, and
division returns NaN, rather than trapping, whenever the divisor is
Integer 0 or Decimal 0.0. -/
theorem C2_nan_absorbing_div_zero :
    (∀ b, ExpressionValue.add .NaN b = .NaN) ∧
    (∀ a, ExpressionValue.add a .NaN = .NaN) ∧
    (∀ b, ExpressionValue.sub .NaN b = .NaN) ∧
    (∀ a, ExpressionValue.sub a .NaN = .NaN) ∧
    (∀ b, ExpressionValue.mul .NaN b = .NaN) ∧
    (∀ a, ExpressionValue.mul a .NaN = .NaN) ∧
    (∀ b, ExpressionValue.div .NaN b = .ok .NaN) ∧
    (∀ a, ExpressionValue.div a .NaN = .ok .NaN) ∧
    (∀ a, ExpressionValue.div a (.Integer 0) = .ok .NaN) ∧
    (∀ a, ExpressionValue.div a (.Decimal 0) = .ok .NaN) := by
  refine ⟨?_, ?_, ?_, ?_, ?_, ?_, ?_, ?_, ?_, ?_⟩ <;>
    intro x <;> cases x <;>
      simp [ExpressionValue.add, ExpressionValue.sub, ExpressionValue.mul,
        ExpressionValue.div]

/-! ### src/parse/error.rs -/

/-- Embedding of enum ParsingError. -/
inductive ParsingError where
  | Unknown : ParsePosition → ParsingError
  | EndOfInput : ParsePosition → ParsingError
  | ExtraInput : ParsePosition → ParsingError
  | Number : ParsePosition → ParsingError
deriving DecidableEq, Repr

/-! ### src/expression/parse.rs -/

/-- Result of a fuel-indexed parser function: none is fuel exhaustion (the
Rust code has no fuel; every theorem quantifies over or supplies the fuel). -/
abbrev PResult (α : Type) := Option (Except ParsingError α)

/-- Error-propagating bind for parser results (the Rust question mark). -/
def pbind {α β : Type} (x : PResult α) (f : α → PResult β) : PResult β :=
  match x with
  | none => none
  | some (.error e) => some (.error e)
  | some (.ok a) => f a

@[simp] theorem pbind_none {α β : Type} (f : α → PResult β) :
    pbind none f = none := rfl

@[simp] theorem pbind_error {α β : Type} (e : ParsingError)
    (f : α → PResult β) : pbind (some (.error e)) f = some (.error e) := rfl

@[simp] theorem pbind_ok {α β : Type} (a : α) (f : α → PResult β) :
    pbind (some (.ok a)) f = f a := rfl

/-- Embedding of scan_whitespace from src/expression/parse.rs. -/
def scan_whitespace (s : List Char) (context : ScanContext) : ScanContext :=
  scan_zero_or_more_chars s context isAsciiWhitespace

/-- Embedding of scan_digits. -/
def scan_digits (s : List Char) (context : ScanContext) : ScanContext :=
  scan_one_or_more_chars s context isAsciiDigit

/-- Embedding of scan_to_end. -/
def scan_to_end (s : List Char) (context : ScanContext) : ScanContext :=
  scan_zero_or_more_chars s context (fun _ => true)

/-- Embedding of expect_match. -/
def expect_match (s : List Char) (start_position : ScanPosition)
    (context : ScanContext) : Except ParsingError ScanContext :=
  let (matched, position) := context
  if !matched then
    if byteLen s ≤ position.byte_index then
      .error (.EndOfInput ⟨start_position, position⟩)
    else
      .error (.Number ⟨start_position, position⟩)
  else .ok context

/-- Embedding of parse_whitespace. -/
def parse_whitespace (s : List Char) (context : ScanContext) :
    Except ParsingError ScanContext :=
  expect_match s context.2 (scan_whitespace s context)

/-- Value of a run of ASCII digits. -/
def digitsToNat (ds : List Char) : Nat :=
  ds.foldl (fun a c => a * 10 + (c.toNat - 48)) 0

/-- Embedding of the Rust i32 FromStr conversion on the scanned number
slices (an optional minus then digits); overflow of the i32 range is the
conversion failure that becomes a Number error. -/
def parseI32 (l : List Char) : Option Int :=
  let (neg, ds) := match l with
    | '-' :: rest => (true, rest)
    | _ => (false, l)
  if ds.isEmpty || !(ds.all isAsciiDigit) then none
  else
    let v : Int := if neg then -(digitsToNat ds : Int) else (digitsToNat ds : Int)
    if v < -(2 ^ 31) || 2 ^ 31 - 1 < v then none else some v

/-- Exponent tail of a decimal literal: empty, or the letter e or E followed
by digits only (the grammar scans no sign there). -/
def parseExpPart (base : Rat) (l : List Char) : Option Rat :=
  match l with
  | [] => some base
  | c :: r =>
      if c = 'e' ∨ c = 'E' then
        let ds := r.takeWhile isAsciiDigit
        if ds.isEmpty || !(r.dropWhile isAsciiDigit).isEmpty then none
        else some (base * mkRat (Nat.pow 10 (digitsToNat ds)) 1)
      else none

/-- Nonnegative part of the f64 conversion of a scanned decimal literal,
as an exact rational. -/
def parseF64nonneg (l : List Char) : Option Rat :=
  let ip := l.takeWhile isAsciiDigit
  let r1 := l.dropWhile isAsciiDigit
  if ip.isEmpty then none
  else
    match r1 with
    | '.' :: r2 =>
        let fp := r2.takeWhile isAsciiDigit
        let r3 := r2.dropWhile isAsciiDigit
        if fp.isEmpty then none
        else
          parseExpPart
            (mkRat (digitsToNat ip) 1 +
              mkRat (digitsToNat fp) 1 / mkRat (Nat.pow 10 fp.length) 1)
            r3
    | _ => parseExpPart (mkRat (digitsToNat ip) 1) r1

/-- Embedding of the Rust f64 FromStr conversion on the scanned number
slices, as an exact rational (the f64 rounding is abstracted away; no settled
claim depends on it).  Rust f64 parsing does not fail on a long digit run, it
saturates, so on every slice the number scanner accepts this returns a value. -/
def parseF64 (l : List Char) : Option Rat :=
  match l with
  | '-' :: rest => (parseF64nonneg rest).map (fun q => -q)
  | _ => parseF64nonneg l

/-- The optional fractional part of parse_number: when a decimal point was
scanned, a run of digits is required after it. -/
def decimalTail (s : List Char) (start_position : ScanPosition)
    (is_decimal : Bool) (position3 : ScanPosition) :
    Except ParsingError ScanPosition :=
  if is_decimal then
    match expect_match s start_position (scan_digits s (true, position3)) with
    | .error e => .error e
    | .ok c => .ok c.2
  else .ok position3

/-- The optional exponent part of parse_number: when the letter e or E was
scanned, a run of digits is required after it (no sign). -/
def exponentTail (s : List Char) (start_position : ScanPosition)
    (has_exponent : Bool) (exponent_position position4 : ScanPosition) :
    Except ParsingError ScanPosition :=
  if has_exponent then
    match expect_match s start_position (scan_digits s (true, exponent_position)) with
    | .error e => .error e
    | .ok c => .ok c.2
  else .ok position4

/-- Final step of parse_number: convert the scanned slice, decimal when a
fraction or exponent was present, integer otherwise; conversion failure is a
Number error. -/
def numberValue (s : List Char) (start_position : ScanPosition)
    (is_decimal has_exponent : Bool) (position5 : ScanPosition) :
    Except ParsingError (ScanContext × ExpressionNode) :=
  if is_decimal || has_exponent then
    match parseF64 (byteSlice s start_position.byte_index
        position5.byte_index) with
    | none => .error (.Number ⟨start_position, position5⟩)
    | some v => .ok ((true, position5), .Decimal ⟨start_position, position5⟩ v)
  else
    match parseI32 (byteSlice s start_position.byte_index
        position5.byte_index) with
    | none => .error (.Number ⟨start_position, position5⟩)
    | some v => .ok ((true, position5), .Integer ⟨start_position, position5⟩ v)

/-- The exponent scan of parse_number: try the letter e, then the letter E. -/
def expScan (s : List Char) (position4 : ScanPosition) : ScanContext :=
  if (scan_literal s (true, position4) ['e']).1 then
    scan_literal s (true, position4) ['e']
  else scan_literal s (true, position4) ['E']

/-- Tail of parse_number after the fractional part. -/
def numberExponent (s : List Char) (start_position : ScanPosition)
    (is_decimal : Bool) (position4 : ScanPosition) :
    Except ParsingError (ScanContext × ExpressionNode) :=
  match exponentTail s start_position (expScan s position4).1
      (expScan s position4).2 position4 with
  | .error e => .error e
  | .ok position5 =>
      numberValue s start_position is_decimal (expScan s position4).1 position5

/-- Tail of parse_number after the required digit run. -/
def numberAfterDigits (s : List Char) (start_position : ScanPosition)
    (dotScan : ScanContext) :
    Except ParsingError (ScanContext × ExpressionNode) :=
  match decimalTail s start_position dotScan.1 dotScan.2 with
  | .error e => .error e
  | .ok position4 => numberExponent s start_position dotScan.1 position4

/-- Body of parse_number from the position after leading whitespace. -/
def numberTail (s : List Char) (start_position : ScanPosition) :
    Except ParsingError (ScanContext × ExpressionNode) :=
  match expect_match s start_position (scan_digits s
      (true, (scan_literal s (true, start_position) ['-']).2)) with
  | .error e => .error e
  | .ok c2 =>
      numberAfterDigits s start_position (scan_literal s (true, c2.2) ['.'])

/-- Embedding of parse_number from src/expression/parse.rs.  It is the one
parser function with no recursion, so it needs no fuel. -/
def parse_number (s : List Char) (context : ScanContext) :
    Except ParsingError (ScanContext × ExpressionNode) :=
  match parse_whitespace s context with
  | .error e => .error e
  | .ok c0 => numberTail s c0.2

mutual

/-- Embedding of parse_value: an optionally negated parenthesized expression,
or a number.  On no opening parenthesis the number parse restarts at the
position before the optionally scanned minus sign. -/
def parse_value : Nat → List Char → ScanContext →
    PResult (ScanContext × ExpressionNode)
  | 0, _, _ => none
  | fuel + 1, s, context =>
      match parse_whitespace s context with
      | .error e => some (.error e)
      | .ok c0 =>
          let start_position := c0.2
          let (is_negative, position1) := scan_literal s (true, start_position) ['-']
          let (m2, position2) := scan_literal s (true, position1) ['(']
          if m2 then
            pbind (parse_expression fuel s (m2, position2)) fun x =>
              match parse_whitespace s x.1 with
              | .error e => some (.error e)
              | .ok c4 =>
                  match expect_match s start_position (scan_literal s c4 [')']) with
                  | .error e => some (.error e)
                  | .ok c5 =>
                      some (.ok (c5, .Parenthesis ⟨start_position, c5.2⟩
                        (if is_negative then .Negative else .Positive) x.2))
          else
            some (parse_number s (true, start_position))

/-- Embedding of parse_power.  Note: the caret is scanned directly at the end
of the left operand, with no whitespace skip before it. -/
def parse_power : Nat → List Char → ScanContext →
    PResult (ScanContext × ExpressionNode)
  | 0, _, _ => none
  | fuel + 1, s, context =>
      match parse_whitespace s context with
      | .error e => some (.error e)
      | .ok c0 =>
          let start_position := c0.2
          pbind (parse_value fuel s (true, start_position)) fun x =>
            let (m2, position2) := scan_literal s (x.1.1, x.1.2) ['^']
            if m2 then
              pbind (parse_value fuel s (m2, position2)) fun y =>
                some (.ok ((true, y.1.2),
                  .Power ⟨start_position, y.1.2⟩ x.2 y.2))
            else some (.ok ((true, x.1.2), x.2))

/-- Embedding of parse_quotient with its operand-collecting loop. -/
def parse_quotient : Nat → List Char → ScanContext →
    PResult (ScanContext × ExpressionNode)
  | 0, _, _ => none
  | fuel + 1, s, context =>
      match parse_whitespace s context with
      | .error e => some (.error e)
      | .ok c0 =>
          let start_position := c0.2
          pbind (parse_power fuel s (true, start_position)) fun x =>
            match parse_whitespace s x.1 with
            | .error e => some (.error e)
            | .ok c2 =>
                let (m3, position3) := scan_literal s c2 ['/']
                if m3 then
                  pbind (quotLoop fuel s position3 [x.2]) fun y =>
                    some (.ok ((true, y.1),
                      .Quotient ⟨start_position, y.1⟩ y.2))
                else some (.ok ((true, x.1.2), x.2))

/-- The while loop of parse_quotient: parse the next operand, append it, then
look for the next operator after optional whitespace. -/
def quotLoop : Nat → List Char → ScanPosition → List ExpressionNode →
    PResult (ScanPosition × List ExpressionNode)
  | 0, _, _, _ => none
  | fuel + 1, s, position, operands =>
      pbind (parse_power fuel s (true, position)) fun x =>
        match parse_whitespace s x.1 with
        | .error e => some (.error e)
        | .ok c2 =>
            let (m3, position3) := scan_literal s c2 ['/']
            if m3 then quotLoop fuel s position3 (operands ++ [x.2])
            else some (.ok (x.1.2, operands ++ [x.2]))

/-- Embedding of parse_product with its operand-collecting loop. -/
def parse_product : Nat → List Char → ScanContext →
    PResult (ScanContext × ExpressionNode)
  | 0, _, _ => none
  | fuel + 1, s, context =>
      match parse_whitespace s context with
      | .error e => some (.error e)
      | .ok c0 =>
          let start_position := c0.2
          pbind (parse_quotient fuel s (true, start_position)) fun x =>
            match parse_whitespace s x.1 with
            | .error e => some (.error e)
            | .ok c2 =>
                let (m3, position3) := scan_literal s c2 ['*']
                if m3 then
                  pbind (prodLoop fuel s position3 [x.2]) fun y =>
                    some (.ok ((true, y.1),
                      .Product ⟨start_position, y.1⟩ y.2))
                else some (.ok ((true, x.1.2), x.2))

/-- The while loop of parse_product. -/
def prodLoop : Nat → List Char → ScanPosition → List ExpressionNode →
    PResult (ScanPosition × List ExpressionNode)
  | 0, _, _, _ => none
  | fuel + 1, s, position, operands =>
      pbind (parse_quotient fuel s (true, position)) fun x =>
        match parse_whitespace s x.1 with
        | .error e => some (.error e)
        | .ok c2 =>
            let (m3, position3) := scan_literal s c2 ['*']
            if m3 then prodLoop fuel s position3 (operands ++ [x.2])
            else some (.ok (x.1.2, operands ++ [x.2]))

/-- Embedding of parse_difference with its operand-collecting loop. -/
def parse_difference : Nat → List Char → ScanContext →
    PResult (ScanContext × ExpressionNode)
  | 0, _, _ => none
  | fuel + 1, s, context =>
      match parse_whitespace s context with
      | .error e => some (.error e)
      | .ok c0 =>
          let start_position := c0.2
          pbind (parse_product fuel s (true, start_position)) fun x =>
            match parse_whitespace s x.1 with
            | .error e => some (.error e)
            | .ok c2 =>
                let (m3, position3) := scan_literal s c2 ['-']
                if m3 then
                  pbind (diffLoop fuel s position3 [x.2]) fun y =>
                    some (.ok ((true, y.1),
                      .Difference ⟨start_position, y.1⟩ y.2))
                else some (.ok ((true, x.1.2), x.2))

/-- The while loop of parse_difference. -/
def diffLoop : Nat → List Char → ScanPosition → List ExpressionNode →
    PResult (ScanPosition × List ExpressionNode)
  | 0, _, _, _ => none
  | fuel + 1, s, position, operands =>
      pbind (parse_product fuel s (true, position)) fun x =>
        match parse_whitespace s x.1 with
        | .error e => some (.error e)
        | .ok c2 =>
            let (m3, position3) := scan_literal s c2 ['-']
            if m3 then diffLoop fuel s position3 (operands ++ [x.2])
            else some (.ok (x.1.2, operands ++ [x.2]))

/-- Embedding of parse_sum with its operand-collecting loop. -/
def parse_sum : Nat → List Char → ScanContext →
    PResult (ScanContext × ExpressionNode)
  | 0, _, _ => none
  | fuel + 1, s, context =>
      match parse_whitespace s context with
      | .error e => some (.error e)
      | .ok c0 =>
          let start_position := c0.2
          pbind (parse_difference fuel s (true, start_position)) fun x =>
            match parse_whitespace s x.1 with
            | .error e => some (.error e)
            | .ok c2 =>
                let (m3, position3) := scan_literal s c2 ['+']
                if m3 then
                  pbind (sumLoop fuel s position3 [x.2]) fun y =>
                    some (.ok ((true, y.1),
                      .Sum ⟨start_position, y.1⟩ y.2))
                else some (.ok ((true, x.1.2), x.2))

/-- The while loop of parse_sum. -/
def sumLoop : Nat → List Char → ScanPosition → List ExpressionNode →
    PResult (ScanPosition × List ExpressionNode)
  | 0, _, _, _ => none
  | fuel + 1, s, position, operands =>
      pbind (parse_difference fuel s (true, position)) fun x =>
        match parse_whitespace s x.1 with
        | .error e => some (.error e)
        | .ok c2 =>
            let (m3, position3) := scan_literal s c2 ['+']
            if m3 then sumLoop fuel s position3 (operands ++ [x.2])
            else some (.ok (x.1.2, operands ++ [x.2]))

/-- Embedding of parse_expression. -/
def parse_expression : Nat → List Char → ScanContext →
    PResult (ScanContext × ExpressionNode)
  | 0, _, _ => none
  | fuel + 1, s, context => parse_sum fuel s context

/-- Embedding of the exhaustive entry point parse: parse an expression and
require that only trailing whitespace remains; unconsumed input is an
ExtraInput error spanning from the first extra character to end of input. -/
def parse : Nat → List Char → ScanContext →
    PResult (ScanContext × ExpressionNode)
  | 0, _, _ => none
  | fuel + 1, s, context =>
      match parse_expression fuel s context with
      | none => none
      | some (.error e) => some (.error e)
      | some (.ok (expression_context, expression_node)) =>
          let (matched, position) := scan_whitespace s expression_context
          if !matched || position.byte_index < byteLen s then
            some (.error (.ExtraInput
              ⟨position, (scan_to_end s (matched, position)).2⟩))
          else some (.ok (expression_context, expression_node))

end

/-! ### Support lemmas about the parser -/

/-- Splitting a pbind that ended in a successful parse. -/
theorem pbind_eq_ok {α β : Type} (x : PResult α) (f : α → PResult β)
    (bv : β) (h : pbind x f = some (.ok bv)) :
    ∃ a, x = some (.ok a) ∧ f a = some (.ok bv) := by
  match x with
  | none => simp [pbind] at h
  | some (.error e) => simp [pbind] at h
  | some (.ok a) => exact ⟨a, rfl, by simpa [pbind] using h⟩

@[simp] theorem byteDrop_all (s : List Char) : byteDrop s (byteLen s) = [] := by
  simpa using byteDrop_append s []

theorem scanZeroOrMoreAux_append (test : Char → Bool) (w : List Char) :
    ∀ (rest : List Char) (p : ScanPosition), (∀ c ∈ w, test c = true) →
    scanZeroOrMoreAux test (w ++ rest) p =
      scanZeroOrMoreAux test rest (advanceMany p w) := by
  induction w with
  | nil => intro rest p _; simp [advanceMany]
  | cons c cs ih =>
      intro rest p hall
      have hc : test c = true := hall c (by simp)
      have : advanceMany p (c :: cs) = advanceMany (advanceChar p c) cs := rfl
      rw [this]
      simpa [scanZeroOrMoreAux, hc] using ih rest (advanceChar p c)
        (fun x hx => hall x (by simp [hx]))

/-- At the end of the input the whitespace scan is the identity. -/
theorem scan_whitespace_atEnd (s : List Char) (p : ScanPosition)
    (hp : p.byte_index = byteLen s) :
    scan_whitespace s (true, p) = (true, p) := by
  simp [scan_whitespace, scan_zero_or_more_chars, hp, scanZeroOrMoreAux]

theorem parse_whitespace_atEnd (s : List Char) (p : ScanPosition)
    (hp : p.byte_index = byteLen s) :
    parse_whitespace s (true, p) = .ok (true, p) := by
  simp [parse_whitespace, scan_whitespace_atEnd s p hp, expect_match]

theorem scan_literal_atEnd (s : List Char) (p : ScanPosition)
    (c : Char) (lit : List Char) (hp : p.byte_index = byteLen s) :
    scan_literal s (true, p) (c :: lit) = (false, p) := by
  simp [scan_literal, hp, scanLiteralAux]

theorem scan_digits_atEnd (s : List Char) (p : ScanPosition)
    (hp : p.byte_index = byteLen s) :
    scan_digits s (true, p) = (false, p) := by
  simp [scan_digits, scan_one_or_more_chars, hp, scanOneOrMoreAux]

/-- At the end of the input parse_number reports EndOfInput at the current
position. -/
theorem parse_number_atEnd (s : List Char) (p : ScanPosition)
    (hp : p.byte_index = byteLen s) :
    parse_number s (true, p) = .error (.EndOfInput ⟨p, p⟩) := by
  simp [parse_number, numberTail, parse_whitespace_atEnd s p hp,
    scan_literal_atEnd s p _ _ hp, scan_digits_atEnd s p hp,
    expect_match, hp]

theorem parse_value_atEnd (s : List Char) (p : ScanPosition) (n : Nat)
    (hp : p.byte_index = byteLen s) :
    parse_value (n + 1) s (true, p) = some (.error (.EndOfInput ⟨p, p⟩)) := by
  simp [parse_value, parse_whitespace_atEnd s p hp,
    scan_literal_atEnd s p _ _ hp, parse_number_atEnd s p hp]

theorem parse_power_atEnd (s : List Char) (p : ScanPosition) (n : Nat)
    (hp : p.byte_index = byteLen s) :
    parse_power (n + 2) s (true, p) = some (.error (.EndOfInput ⟨p, p⟩)) := by
  simp [parse_power, parse_whitespace_atEnd s p hp, parse_value_atEnd s p n hp,
    pbind]

theorem parse_quotient_atEnd (s : List Char) (p : ScanPosition) (n : Nat)
    (hp : p.byte_index = byteLen s) :
    parse_quotient (n + 3) s (true, p) =
      some (.error (.EndOfInput ⟨p, p⟩)) := by
  simp [parse_quotient, parse_whitespace_atEnd s p hp,
    parse_power_atEnd s p n hp, pbind]

theorem parse_product_atEnd (s : List Char) (p : ScanPosition) (n : Nat)
    (hp : p.byte_index = byteLen s) :
    parse_product (n + 4) s (true, p) =
      some (.error (.EndOfInput ⟨p, p⟩)) := by
  simp [parse_product, parse_whitespace_atEnd s p hp,
    parse_quotient_atEnd s p n hp, pbind]

theorem parse_difference_atEnd (s : List Char) (p : ScanPosition) (n : Nat)
    (hp : p.byte_index = byteLen s) :
    parse_difference (n + 5) s (true, p) =
      some (.error (.EndOfInput ⟨p, p⟩)) := by
  simp [parse_difference, parse_whitespace_atEnd s p hp,
    parse_product_atEnd s p n hp, pbind]

/-- Consuming an all-whitespace input moves the whitespace scan to its end. -/
theorem scan_whitespace_all (s : List Char) (p : ScanPosition)
    (hp : p.byte_index = 0) (hws : ∀ c ∈ s, isAsciiWhitespace c = true) :
    scan_whitespace s (true, p) = (true, advanceMany p s) := by
  have hdrop : byteDrop s p.byte_index = s := by rw [hp]; simp
  have hrun : scanZeroOrMoreAux isAsciiWhitespace s p = advanceMany p s := by
    have := scanZeroOrMoreAux_append isAsciiWhitespace s [] p hws
    simpa [scanZeroOrMoreAux] using this
  simp [scan_whitespace, scan_zero_or_more_chars, hp, hdrop, hrun]

/-- Claim C6, part helper: on an all-whitespace input the parser descends to
parse_number at the end of the input and reports EndOfInput there. -/
theorem parse_whitespace_only_input (s : List Char)
    (hws : ∀ c ∈ s, isAsciiWhitespace c = true) (n : Nat) :
    parse (n + 8) s (true, ScanPosition.start) =
      some (.error (.EndOfInput
        ⟨advanceMany ScanPosition.start s, advanceMany ScanPosition.start s⟩)) := by
  have hscan := scan_whitespace_all s ScanPosition.start rfl hws
  have hpw : parse_whitespace s (true, ScanPosition.start) =
      .ok (true, advanceMany ScanPosition.start s) := by
    simp [parse_whitespace, hscan, expect_match]
  have hend : (advanceMany ScanPosition.start s).byte_index = byteLen s := by
    have := (advanceMany_spec s ScanPosition.start).1
    simpa [ScanPosition.start] using this
  have hsum : parse_sum (n + 6) s (true, ScanPosition.start) =
      some (.error (.EndOfInput
        ⟨advanceMany ScanPosition.start s, advanceMany ScanPosition.start s⟩)) := by
    simp [parse_sum, hpw, parse_difference_atEnd s _ n hend, pbind]
  simp [parse, parse_expression, hsum]

/-- Claim C6 (confirmed).  The top-level parse returns EndOfInput on every
empty or whitespace-only input; and whenever the expression parses but
non-whitespace input remains, it returns an ExtraInput error whose span
starts at the first extra non-whitespace character and ends at the end of
the input.  The expression context is assumed aligned on a character
boundary (pre is its consumed prefix), which every run of the parser
maintains. -/
theorem C6_parse_boundary :
    (∀ (s : List Char), (∀ c ∈ s, isAsciiWhitespace c = true) →
      ∀ n, parse (n + 8) s (true, ScanPosition.start) =
        some (.error (.EndOfInput
          ⟨advanceMany ScanPosition.start s, advanceMany ScanPosition.start s⟩))) ∧
    (∀ (fuel : Nat) (s pre : List Char) (context ectx : ScanContext)
       (node : ExpressionNode) (p : ScanPosition),
      parse_expression fuel s context = some (.ok (ectx, node)) →
      s = pre ++ byteDrop s ectx.2.byte_index →
      ectx.2.byte_index = byteLen pre →
      scan_whitespace s ectx = (true, p) →
      p.byte_index < byteLen s →
      parse (fuel + 1) s context =
        some (.error (.ExtraInput ⟨p, (scan_to_end s (true, p)).2⟩)) ∧
      (scan_to_end s (true, p)).2.byte_index = byteLen s ∧
      ∃ c crest, byteDrop s p.byte_index = c :: crest ∧
        isAsciiWhitespace c = false) := by
  constructor
  · exact parse_whitespace_only_input
  · intro fuel s pre context ectx node p hparse hsplit hbyte hws hlt
    obtain ⟨em, ep⟩ := ectx
    simp only at hsplit hbyte
    cases em with
    | false =>
        exfalso
        simp [scan_whitespace, scan_zero_or_more_chars] at hws
    | true =>
        by_cases hr : byteLen s < ep.byte_index
        · exfalso
          simp [scan_whitespace, scan_zero_or_more_chars, hr] at hws
        · obtain ⟨w, t, hwt, hrun, hallw, hstop⟩ :=
            scanZeroOrMoreAux_consumes isAsciiWhitespace
              (byteDrop s ep.byte_index) ep
          have hwsval : scan_whitespace s (true, ep) =
              (true, scanZeroOrMoreAux isAsciiWhitespace
                (byteDrop s ep.byte_index) ep) := by
            simp [scan_whitespace, scan_zero_or_more_chars, hr]
          have hq : p = advanceMany ep w := by
            rw [hwsval, hrun] at hws
            exact (Prod.mk.injEq _ _ _ _ ▸ hws).2.symm
          have hpbyte : p.byte_index = byteLen (pre ++ w) := by
            rw [hq, (advanceMany_spec w ep).1, hbyte, byteLen_append]
          have hsplit2 : s = (pre ++ w) ++ t := by
            conv_lhs => rw [hsplit, hwt]
            simp [List.append_assoc]
          have hdropP : byteDrop s p.byte_index = t := by
            rw [hpbyte]
            conv_lhs => rw [hsplit2]
            exact byteDrop_append (pre ++ w) t
          have hslen : byteLen s = byteLen (pre ++ w) + byteLen t := by
            conv_lhs => rw [hsplit2]
            exact byteLen_append _ _
          have ht : ∃ c crest, t = c :: crest ∧ isAsciiWhitespace c = false := by
            rcases hstop with rfl | ⟨c, cs, rfl, hcf⟩
            · exfalso
              rw [hpbyte] at hlt
              simp at hslen
              omega
            · exact ⟨c, cs, rfl, hcf⟩
          have htend : scan_to_end s (true, p) = (true, advanceMany p t) := by
            have hrange : ¬ byteLen s < p.byte_index := by
              omega
            have hauxall : scanZeroOrMoreAux (fun _ => true) t p =
                advanceMany p t := by
              have := scanZeroOrMoreAux_append (fun _ => true) t [] p
                (by intro c _; rfl)
              simpa [scanZeroOrMoreAux] using this
            simp [scan_to_end, scan_zero_or_more_chars, hrange, hdropP, hauxall]
          have htendbyte : (scan_to_end s (true, p)).2.byte_index = byteLen s := by
            rw [htend, (advanceMany_spec t p).1, hpbyte]
            omega
          refine ⟨?_, htendbyte, ?_⟩
          · simp [parse, hparse, hws, hlt]
          · rw [hdropP]
            exact ht

/-- Witness for claim C6: the whitespace-only part applied to a two-space
input, and the extra-input part applied to the input consisting of the digit
one, a space and the letter x. -/
theorem C6_parse_boundary_witness :
    parse 8 "  ".toList (true, ScanPosition.start) =
      some (.error (.EndOfInput
        ⟨advanceMany ScanPosition.start "  ".toList,
         advanceMany ScanPosition.start "  ".toList⟩)) ∧
    parse 21 "1 x".toList (true, ScanPosition.start) =
      some (.error (.ExtraInput
        ⟨⟨2, 2, 0, 0, 0⟩,
         (scan_to_end "1 x".toList (true, ⟨2, 2, 0, 0, 0⟩)).2⟩)) := by
  constructor
  · exact C6_parse_boundary.1 "  ".toList (by decide) 0
  · exact (C6_parse_boundary.2 20 "1 x".toList "1".toList
      (true, ScanPosition.start) (true, ⟨1, 1, 0, 0, 0⟩)
      (.Integer ⟨ScanPosition.start, ⟨1, 1, 0, 0, 0⟩⟩ 1) ⟨2, 2, 0, 0, 0⟩
      (by rfl) (by decide) (by decide) (by decide) (by decide)).1

/-- Skipping a leading whitespace run: the whitespace scan gives the same
context whether started before or after the run. -/
theorem scan_whitespace_ws_run (s pre w rest : List Char) (p : ScanPosition)
    (hs : s = pre ++ (w ++ rest)) (hb : p.byte_index = byteLen pre)
    (hws : ∀ c ∈ w, isAsciiWhitespace c = true) :
    scan_whitespace s (true, p) =
      scan_whitespace s (true, advanceMany p w) := by
  have hlen : byteLen s = byteLen pre + (byteLen w + byteLen rest) := by
    rw [hs, byteLen_append, byteLen_append]
  have hdropP : byteDrop s p.byte_index = w ++ rest := by
    rw [hb]
    conv_lhs => rw [hs]
    exact byteDrop_append pre (w ++ rest)
  have hqb : (advanceMany p w).byte_index = p.byte_index + byteLen w :=
    (advanceMany_spec w p).1
  have hdropQ : byteDrop s (advanceMany p w).byte_index = rest := by
    rw [hqb, hb, ← byteLen_append]
    have : s = (pre ++ w) ++ rest := by rw [hs]; simp [List.append_assoc]
    conv_lhs => rw [this]
    exact byteDrop_append (pre ++ w) rest
  have hrp : ¬ byteLen s < p.byte_index := by omega
  have hrq : ¬ byteLen s < (advanceMany p w).byte_index := by omega
  simp only [scan_whitespace, scan_zero_or_more_chars, hrp, hrq, hdropP, hdropQ]
  simp [scanZeroOrMoreAux_append isAsciiWhitespace w rest p hws]

/-- Same fact one level up, through parse_whitespace. -/
theorem parse_whitespace_ws_run (s pre w rest : List Char) (p : ScanPosition)
    (hs : s = pre ++ (w ++ rest)) (hb : p.byte_index = byteLen pre)
    (hws : ∀ c ∈ w, isAsciiWhitespace c = true) :
    parse_whitespace s (true, p) =
      parse_whitespace s (true, advanceMany p w) := by
  have hdropP : byteDrop s p.byte_index = w ++ rest := by
    rw [hb]
    conv_lhs => rw [hs]
    exact byteDrop_append pre (w ++ rest)
  have hlen : byteLen s = byteLen pre + (byteLen w + byteLen rest) := by
    rw [hs, byteLen_append, byteLen_append]
  have hrp : ¬ byteLen s < p.byte_index := by omega
  have hscan := scan_whitespace_ws_run s pre w rest p hs hb hws
  have hval : scan_whitespace s (true, p) =
      (true, scanZeroOrMoreAux isAsciiWhitespace (w ++ rest) p) := by
    simp [scan_whitespace, scan_zero_or_more_chars, hrp, hdropP]
  simp only [parse_whitespace, hscan, hval]
  simp [expect_match, ← hscan, hval]

/-- Whitespace-run invariance of parse_sum (the sub-expression entry point):
only the initial whitespace skip looks at the starting position. -/
theorem parse_sum_ws_run (fuel : Nat) (s pre w rest : List Char)
    (p : ScanPosition)
    (hs : s = pre ++ (w ++ rest)) (hb : p.byte_index = byteLen pre)
    (hws : ∀ c ∈ w, isAsciiWhitespace c = true) :
    parse_sum fuel s (true, p) = parse_sum fuel s (true, advanceMany p w) := by
  cases fuel with
  | zero => rfl
  | succ fuel =>
      simp only [parse_sum]
      rw [parse_whitespace_ws_run s pre w rest p hs hb hws]

/-- Whitespace-run invariance of parse_value. -/
theorem parse_value_ws_run (fuel : Nat) (s pre w rest : List Char)
    (p : ScanPosition)
    (hs : s = pre ++ (w ++ rest)) (hb : p.byte_index = byteLen pre)
    (hws : ∀ c ∈ w, isAsciiWhitespace c = true) :
    parse_value fuel s (true, p) =
      parse_value fuel s (true, advanceMany p w) := by
  cases fuel with
  | zero => rfl
  | succ fuel =>
      simp only [parse_value]
      rw [parse_whitespace_ws_run s pre w rest p hs hb hws]

/-- Whitespace-run invariance of parse_expression. -/
theorem parse_expression_ws_run (fuel : Nat) (s pre w rest : List Char)
    (p : ScanPosition)
    (hs : s = pre ++ (w ++ rest)) (hb : p.byte_index = byteLen pre)
    (hws : ∀ c ∈ w, isAsciiWhitespace c = true) :
    parse_expression fuel s (true, p) =
      parse_expression fuel s (true, advanceMany p w) := by
  cases fuel with
  | zero => rfl
  | succ fuel =>
      simp only [parse_expression]
      exact parse_sum_ws_run fuel s pre w rest p hs hb hws

/-- Discriminator: the result is a successful parse of a Power node. -/
def isPowerOk : PResult (ScanContext × ExpressionNode) → Bool
  | some (.ok (_, .Power _ _ _)) => true
  | _ => false

/-- Discriminator: the result is a successful parse of a Sum node. -/
def isSumOk : PResult (ScanContext × ExpressionNode) → Bool
  | some (.ok (_, .Sum _ _)) => true
  | _ => false

/-- Claim C7 (corrected).  The parser skips ASCII whitespace before every
sub-expression: parsing an expression or a value from any position inside a
leading whitespace run gives the identical result, so whitespace inserted
after an operator and before the next operand never changes the parse; the
chain operators of addition, subtraction, multiplication and division are
likewise scanned after a whitespace skip (the sum of one plus two parses
with and without spaces around the plus sign).  The exception is the power
operator: the caret is scanned directly at the end of its left operand, so
whitespace after the caret is accepted but whitespace before the caret ends
the power expression with an ExtraInput error. -/
theorem C7_whitespace_insensitivity :
    (∀ (fuel : Nat) (s pre w rest : List Char) (p : ScanPosition),
      s = pre ++ (w ++ rest) → p.byte_index = byteLen pre →
      (∀ c ∈ w, isAsciiWhitespace c = true) →
      parse_expression fuel s (true, p) =
        parse_expression fuel s (true, advanceMany p w)) ∧
    (∀ (fuel : Nat) (s pre w rest : List Char) (p : ScanPosition),
      s = pre ++ (w ++ rest) → p.byte_index = byteLen pre →
      (∀ c ∈ w, isAsciiWhitespace c = true) →
      parse_value fuel s (true, p) =
        parse_value fuel s (true, advanceMany p w)) ∧
    isSumOk (parse 20 "1+2".toList (true, ScanPosition.start)) = true ∧
    isSumOk (parse 20 "1 + 2".toList (true, ScanPosition.start)) = true ∧
    isPowerOk (parse 20 "2^3".toList (true, ScanPosition.start)) = true ∧
    isPowerOk (parse 20 "2^ 3".toList (true, ScanPosition.start)) = true ∧
    parse 20 "2 ^3".toList (true, ScanPosition.start) =
      some (.error (.ExtraInput ⟨⟨2, 2, 0, 0, 0⟩, ⟨4, 4, 0, 0, 0⟩⟩)) := by
  refine ⟨?_, ?_, ?_, ?_, ?_, ?_, ?_⟩
  · intro fuel s pre w rest p hs hb hws
    exact parse_expression_ws_run fuel s pre w rest p hs hb hws
  · intro fuel s pre w rest p hs hb hws
    exact parse_value_ws_run fuel s pre w rest p hs hb hws
  · decide
  · decide
  · decide
  · decide
  · rfl

/-- Witness for claim C7: the whitespace-run invariance applied to the input
of a space then the digit one, starting before versus after the space. -/
theorem C7_whitespace_insensitivity_witness :
    parse_expression 20 " 1".toList (true, ScanPosition.start) =
      parse_expression 20 " 1".toList
        (true, advanceMany ScanPosition.start [' ']) :=
  C7_whitespace_insensitivity.1 20 " 1".toList [] [' '] ['1']
    ScanPosition.start (by decide) (by decide) (by decide)

/-- Counterexample for claim C7 as stated: two caret three parses as a Power
node, but inserting a space before the caret makes the parse fail with
ExtraInput instead of producing a structurally equivalent tree, because
parse_power scans the caret without a whitespace skip. -/
theorem C7_whitespace_insensitivity_counterexample :
    isPowerOk (parse 20 "2^3".toList (true, ScanPosition.start)) = true ∧
    parse 20 "2 ^3".toList (true, ScanPosition.start) =
      some (.error (.ExtraInput ⟨⟨2, 2, 0, 0, 0⟩, ⟨4, 4, 0, 0, 0⟩⟩)) := by
  constructor
  · decide
  · rfl

/-- Decidable equality of Except results over decidable components. -/
instance exceptDecEq {ε α : Type} [DecidableEq ε] [DecidableEq α] :
    DecidableEq (Except ε α) := fun x y =>
  match x, y with
  | .error a, .error b =>
      if h : a = b then .isTrue (by rw [h])
      else .isFalse (fun hh => by cases hh; exact h rfl)
  | .error _, .ok _ => .isFalse (fun hh => by cases hh)
  | .ok _, .error _ => .isFalse (fun hh => by cases hh)
  | .ok a, .ok b =>
      if h : a = b then .isTrue (by rw [h])
      else .isFalse (fun hh => by cases hh; exact h rfl)

/-- Evaluate the node of a successful parse. -/
def evalParsed : PResult (ScanContext × ExpressionNode) →
    Option (Except EvalPanic ExpressionValue)
  | some (.ok (_, node)) => some (evaluate node)
  | _ => none

/-- Claim C5 (corrected).  Evaluating a Power node evaluates base and
exponent; two Integer operands use integer exponentiation with any negative
exponent yielding Integer 0; when either operand is Decimal both are promoted
to decimal and pow is applied; and evaluating the parse of the input 2.0^-1
(written without whitespace around the caret, which the grammar requires)
yields Decimal 0.5.  The Power implementation on values is absent from src/
and is modelled from the spec. -/
theorem C5_power_evaluation :
    (∀ (pos pb pe : ParsePosition) (a b : Int),
      evaluate (.Power pos (.Integer pb a) (.Integer pe b)) =
        .ok (if b < 0 then .Integer 0
             else .Integer (wrap32 (Int.pow a b.toNat)))) ∧
    (∀ (pos pb pe : ParsePosition) (a : Rat) (b : Int),
      evaluate (.Power pos (.Decimal pb a) (.Integer pe b)) =
        .ok (.Decimal (ExpressionValue.decPow a (mkRat b 1)))) ∧
    (∀ (pos pb pe : ParsePosition) (a : Int) (b : Rat),
      evaluate (.Power pos (.Integer pb a) (.Decimal pe b)) =
        .ok (.Decimal (ExpressionValue.decPow (mkRat a 1) b))) ∧
    isPowerOk (parse 20 "2.0^-1".toList (true, ScanPosition.start)) = true ∧
    evalParsed (parse 20 "2.0^-1".toList (true, ScanPosition.start)) =
      some (.ok (.Decimal (1 / 2))) := by
  refine ⟨?_, ?_, ?_, ?_, ?_⟩
  · intro pos pb pe a b
    by_cases hb : b < 0 <;> simp [evaluate, ExpressionValue.power, hb]
  · intro pos pb pe a b
    simp [evaluate, ExpressionValue.power]
  · intro pos pb pe a b
    simp [evaluate, ExpressionValue.power]
  · with_unfolding_all decide
  · with_unfolding_all decide

/-- Counterexample for claim C5 as stated: the spec writes the concrete
scenario with whitespace around the caret, but the parse of 2.0 ^ -1 (with
spaces) fails with ExtraInput, because parse_power scans the caret directly
at the end of the left operand. -/
theorem C5_power_evaluation_counterexample :
    parse 20 "2.0 ^ -1".toList (true, ScanPosition.start) =
      some (.error (.ExtraInput ⟨⟨4, 4, 0, 0, 0⟩, ⟨8, 8, 0, 0, 0⟩⟩)) := by
  rfl

/-! ### The chain-node arity invariant of the parser (claim C4) -/

mutual

/-- Every Sum, Difference, Product and Quotient node in the tree has at
least two operands. -/
def chainWF : ExpressionNode → Bool
  | .NaN => true
  | .Integer _ _ => true
  | .Decimal _ _ => true
  | .Parenthesis _ _ inner => chainWF inner
  | .Sum _ ops => decide (2 ≤ ops.length) && chainWFList ops
  | .Difference _ ops => decide (2 ≤ ops.length) && chainWFList ops
  | .Product _ ops => decide (2 ≤ ops.length) && chainWFList ops
  | .Quotient _ ops => decide (2 ≤ ops.length) && chainWFList ops
  | .Power _ b e => chainWF b && chainWF e

/-- List form of chainWF. -/
def chainWFList : List ExpressionNode → Bool
  | [] => true
  | x :: xs => chainWF x && chainWFList xs

end

theorem chainWFList_append (xs : List ExpressionNode) (y : ExpressionNode) :
    chainWFList (xs ++ [y]) = (chainWFList xs && chainWF y) := by
  induction xs with
  | nil => simp [chainWFList]
  | cons x xs ih => simp [chainWFList, ih, Bool.and_assoc]

/-- The nodes produced by parse_number are leaves. -/
theorem numberValue_wf (s : List Char) (sp : ScanPosition)
    (d e : Bool) (p5 : ScanPosition) (c : ScanContext)
    (node : ExpressionNode) (h : numberValue s sp d e p5 = .ok (c, node)) :
    chainWF node = true := by
  unfold numberValue at h
  split at h
  · split at h
    · simp at h
    · simp only [Except.ok.injEq, Prod.mk.injEq] at h
      rw [← h.2]
      simp [chainWF]
  · split at h
    · simp at h
    · simp only [Except.ok.injEq, Prod.mk.injEq] at h
      rw [← h.2]
      simp [chainWF]

theorem parse_number_wf (s : List Char) (ctx c : ScanContext)
    (node : ExpressionNode) (h : parse_number s ctx = .ok (c, node)) :
    chainWF node = true := by
  unfold parse_number at h
  split at h
  · simp at h
  · unfold numberTail at h
    split at h
    · simp at h
    · unfold numberAfterDigits at h
      split at h
      · simp at h
      · unfold numberExponent at h
        split at h
        · simp at h
        · exact numberValue_wf s _ _ _ _ c node h

mutual

/-- Chain arity of parse_value results. -/
theorem parse_value_wf : ∀ (fuel : Nat) (s : List Char) (ctx c : ScanContext)
    (node : ExpressionNode),
    parse_value fuel s ctx = some (.ok (c, node)) → chainWF node = true
  | 0, s, ctx, c, node => by
      intro h
      simp [parse_value] at h
  | fuel + 1, s, ctx, c, node => by
      intro h
      simp only [parse_value] at h
      split at h
      · simp at h
      · split at h
        · obtain ⟨x, hx, h⟩ := pbind_eq_ok _ _ _ h
          split at h
          · simp at h
          · split at h
            · simp at h
            · simp only [Option.some.injEq, Except.ok.injEq, Prod.mk.injEq] at h
              have hnode : node = .Parenthesis _ _ x.2 := h.2.symm
              rw [hnode]
              simp only [chainWF]
              exact parse_expression_wf fuel s _ x.1 x.2 hx
        · simp only [Option.some.injEq] at h
          exact parse_number_wf s _ c node h

/-- Chain arity of parse_power results. -/
theorem parse_power_wf : ∀ (fuel : Nat) (s : List Char) (ctx c : ScanContext)
    (node : ExpressionNode),
    parse_power fuel s ctx = some (.ok (c, node)) → chainWF node = true
  | 0, s, ctx, c, node => by
      intro h
      simp [parse_power] at h
  | fuel + 1, s, ctx, c, node => by
      intro h
      simp only [parse_power] at h
      split at h
      · simp at h
      · obtain ⟨x, hx, h⟩ := pbind_eq_ok _ _ _ h
        split at h
        · obtain ⟨y, hy, h⟩ := pbind_eq_ok _ _ _ h
          simp only [Option.some.injEq, Except.ok.injEq, Prod.mk.injEq] at h
          have hnode : node = .Power _ x.2 y.2 := h.2.symm
          rw [hnode]
          simp only [chainWF, Bool.and_eq_true]
          exact ⟨parse_value_wf fuel s _ x.1 x.2 hx,
            parse_value_wf fuel s _ y.1 y.2 hy⟩
        · simp only [Option.some.injEq, Except.ok.injEq, Prod.mk.injEq] at h
          have hnode : node = x.2 := h.2.symm
          rw [hnode]
          exact parse_value_wf fuel s _ x.1 x.2 hx

/-- Chain arity of parse_quotient results. -/
theorem parse_quotient_wf : ∀ (fuel : Nat) (s : List Char)
    (ctx c : ScanContext) (node : ExpressionNode),
    parse_quotient fuel s ctx = some (.ok (c, node)) → chainWF node = true
  | 0, s, ctx, c, node => by
      intro h
      simp [parse_quotient] at h
  | fuel + 1, s, ctx, c, node => by
      intro h
      simp only [parse_quotient] at h
      split at h
      · simp at h
      · obtain ⟨x, hx, h⟩ := pbind_eq_ok _ _ _ h
        have hxwf : chainWF x.2 = true := parse_power_wf fuel s _ x.1 x.2 hx
        split at h
        · simp at h
        · split at h
          · obtain ⟨y, hy, h⟩ := pbind_eq_ok _ _ _ h
            have hloop := quotLoop_wf fuel s _ [x.2] y.1 y.2
              (by simp [chainWFList, hxwf]) hy
            simp only [Option.some.injEq, Except.ok.injEq, Prod.mk.injEq] at h
            have hnode : node = .Quotient _ y.2 := h.2.symm
            rw [hnode]
            simp only [chainWF, Bool.and_eq_true, decide_eq_true_eq]
            have hlen : (2 : Nat) ≤ y.2.length := by
              have := hloop.2
              simpa using this
            exact ⟨hlen, hloop.1⟩
          · simp only [Option.some.injEq, Except.ok.injEq, Prod.mk.injEq] at h
            have hnode : node = x.2 := h.2.symm
            rw [hnode]
            exact hxwf

/-- Chain arity and growth of the parse_quotient loop. -/
theorem quotLoop_wf : ∀ (fuel : Nat) (s : List Char) (pos : ScanPosition)
    (operands : List ExpressionNode) (p' : ScanPosition)
    (out : List ExpressionNode),
    chainWFList operands = true →
    quotLoop fuel s pos operands = some (.ok (p', out)) →
    chainWFList out = true ∧ operands.length + 1 ≤ out.length
  | 0, s, pos, operands, p', out => by
      intro hops h
      simp [quotLoop] at h
  | fuel + 1, s, pos, operands, p', out => by
      intro hops h
      simp only [quotLoop] at h
      obtain ⟨x, hx, h⟩ := pbind_eq_ok _ _ _ h
      have hxwf : chainWF x.2 = true := parse_power_wf fuel s _ x.1 x.2 hx
      have happ : chainWFList (operands ++ [x.2]) = true := by
        rw [chainWFList_append, hops, hxwf]
        rfl
      split at h
      · simp at h
      · split at h
        · have := quotLoop_wf fuel s _ (operands ++ [x.2]) p' out happ h
          refine ⟨this.1, ?_⟩
          have h2 := this.2
          simp at h2
          omega
        · simp only [Option.some.injEq, Except.ok.injEq, Prod.mk.injEq] at h
          have hout : out = operands ++ [x.2] := h.2.symm
          rw [hout]
          simp [happ]

/-- Chain arity of parse_product results. -/
theorem parse_product_wf : ∀ (fuel : Nat) (s : List Char)
    (ctx c : ScanContext) (node : ExpressionNode),
    parse_product fuel s ctx = some (.ok (c, node)) → chainWF node = true
  | 0, s, ctx, c, node => by
      intro h
      simp [parse_product] at h
  | fuel + 1, s, ctx, c, node => by
      intro h
      simp only [parse_product] at h
      split at h
      · simp at h
      · obtain ⟨x, hx, h⟩ := pbind_eq_ok _ _ _ h
        have hxwf : chainWF x.2 = true := parse_quotient_wf fuel s _ x.1 x.2 hx
        split at h
        · simp at h
        · split at h
          · obtain ⟨y, hy, h⟩ := pbind_eq_ok _ _ _ h
            have hloop := prodLoop_wf fuel s _ [x.2] y.1 y.2
              (by simp [chainWFList, hxwf]) hy
            simp only [Option.some.injEq, Except.ok.injEq, Prod.mk.injEq] at h
            have hnode : node = .Product _ y.2 := h.2.symm
            rw [hnode]
            simp only [chainWF, Bool.and_eq_true, decide_eq_true_eq]
            have hlen : (2 : Nat) ≤ y.2.length := by
              have := hloop.2
              simpa using this
            exact ⟨hlen, hloop.1⟩
          · simp only [Option.some.injEq, Except.ok.injEq, Prod.mk.injEq] at h
            have hnode : node = x.2 := h.2.symm
            rw [hnode]
            exact hxwf

/-- Chain arity and growth of the parse_product loop. -/
theorem prodLoop_wf : ∀ (fuel : Nat) (s : List Char) (pos : ScanPosition)
    (operands : List ExpressionNode) (p' : ScanPosition)
    (out : List ExpressionNode),
    chainWFList operands = true →
    prodLoop fuel s pos operands = some (.ok (p', out)) →
    chainWFList out = true ∧ operands.length + 1 ≤ out.length
  | 0, s, pos, operands, p', out => by
      intro hops h
      simp [prodLoop] at h
  | fuel + 1, s, pos, operands, p', out => by
      intro hops h
      simp only [prodLoop] at h
      obtain ⟨x, hx, h⟩ := pbind_eq_ok _ _ _ h
      have hxwf : chainWF x.2 = true := parse_quotient_wf fuel s _ x.1 x.2 hx
      have happ : chainWFList (operands ++ [x.2]) = true := by
        rw [chainWFList_append, hops, hxwf]
        rfl
      split at h
      · simp at h
      · split at h
        · have := prodLoop_wf fuel s _ (operands ++ [x.2]) p' out happ h
          refine ⟨this.1, ?_⟩
          have h2 := this.2
          simp at h2
          omega
        · simp only [Option.some.injEq, Except.ok.injEq, Prod.mk.injEq] at h
          have hout : out = operands ++ [x.2] := h.2.symm
          rw [hout]
          simp [happ]

/-- Chain arity of parse_difference results. -/
theorem parse_difference_wf : ∀ (fuel : Nat) (s : List Char)
    (ctx c : ScanContext) (node : ExpressionNode),
    parse_difference fuel s ctx = some (.ok (c, node)) → chainWF node = true
  | 0, s, ctx, c, node => by
      intro h
      simp [parse_difference] at h
  | fuel + 1, s, ctx, c, node => by
      intro h
      simp only [parse_difference] at h
      split at h
      · simp at h
      · obtain ⟨x, hx, h⟩ := pbind_eq_ok _ _ _ h
        have hxwf : chainWF x.2 = true := parse_product_wf fuel s _ x.1 x.2 hx
        split at h
        · simp at h
        · split at h
          · obtain ⟨y, hy, h⟩ := pbind_eq_ok _ _ _ h
            have hloop := diffLoop_wf fuel s _ [x.2] y.1 y.2
              (by simp [chainWFList, hxwf]) hy
            simp only [Option.some.injEq, Except.ok.injEq, Prod.mk.injEq] at h
            have hnode : node = .Difference _ y.2 := h.2.symm
            rw [hnode]
            simp only [chainWF, Bool.and_eq_true, decide_eq_true_eq]
            have hlen : (2 : Nat) ≤ y.2.length := by
              have := hloop.2
              simpa using this
            exact ⟨hlen, hloop.1⟩
          · simp only [Option.some.injEq, Except.ok.injEq, Prod.mk.injEq] at h
            have hnode : node = x.2 := h.2.symm
            rw [hnode]
            exact hxwf

/-- Chain arity and growth of the parse_difference loop. -/
theorem diffLoop_wf : ∀ (fuel : Nat) (s : List Char) (pos : ScanPosition)
    (operands : List ExpressionNode) (p' : ScanPosition)
    (out : List ExpressionNode),
    chainWFList operands = true →
    diffLoop fuel s pos operands = some (.ok (p', out)) →
    chainWFList out = true ∧ operands.length + 1 ≤ out.length
  | 0, s, pos, operands, p', out => by
      intro hops h
      simp [diffLoop] at h
  | fuel + 1, s, pos, operands, p', out => by
      intro hops h
      simp only [diffLoop] at h
      obtain ⟨x, hx, h⟩ := pbind_eq_ok _ _ _ h
      have hxwf : chainWF x.2 = true := parse_product_wf fuel s _ x.1 x.2 hx
      have happ : chainWFList (operands ++ [x.2]) = true := by
        rw [chainWFList_append, hops, hxwf]
        rfl
      split at h
      · simp at h
      · split at h
        · have := diffLoop_wf fuel s _ (operands ++ [x.2]) p' out happ h
          refine ⟨this.1, ?_⟩
          have h2 := this.2
          simp at h2
          omega
        · simp only [Option.some.injEq, Except.ok.injEq, Prod.mk.injEq] at h
          have hout : out = operands ++ [x.2] := h.2.symm
          rw [hout]
          simp [happ]

/-- Chain arity of parse_sum results. -/
theorem parse_sum_wf : ∀ (fuel : Nat) (s : List Char) (ctx c : ScanContext)
    (node : ExpressionNode),
    parse_sum fuel s ctx = some (.ok (c, node)) → chainWF node = true
  | 0, s, ctx, c, node => by
      intro h
      simp [parse_sum] at h
  | fuel + 1, s, ctx, c, node => by
      intro h
      simp only [parse_sum] at h
      split at h
      · simp at h
      · obtain ⟨x, hx, h⟩ := pbind_eq_ok _ _ _ h
        have hxwf : chainWF x.2 = true :=
          parse_difference_wf fuel s _ x.1 x.2 hx
        split at h
        · simp at h
        · split at h
          · obtain ⟨y, hy, h⟩ := pbind_eq_ok _ _ _ h
            have hloop := sumLoop_wf fuel s _ [x.2] y.1 y.2
              (by simp [chainWFList, hxwf]) hy
            simp only [Option.some.injEq, Except.ok.injEq, Prod.mk.injEq] at h
            have hnode : node = .Sum _ y.2 := h.2.symm
            rw [hnode]
            simp only [chainWF, Bool.and_eq_true, decide_eq_true_eq]
            have hlen : (2 : Nat) ≤ y.2.length := by
              have := hloop.2
              simpa using this
            exact ⟨hlen, hloop.1⟩
          · simp only [Option.some.injEq, Except.ok.injEq, Prod.mk.injEq] at h
            have hnode : node = x.2 := h.2.symm
            rw [hnode]
            exact hxwf

/-- Chain arity and growth of the parse_sum loop. -/
theorem sumLoop_wf : ∀ (fuel : Nat) (s : List Char) (pos : ScanPosition)
    (operands : List ExpressionNode) (p' : ScanPosition)
    (out : List ExpressionNode),
    chainWFList operands = true →
    sumLoop fuel s pos operands = some (.ok (p', out)) →
    chainWFList out = true ∧ operands.length + 1 ≤ out.length
  | 0, s, pos, operands, p', out => by
      intro hops h
      simp [sumLoop] at h
  | fuel + 1, s, pos, operands, p', out => by
      intro hops h
      simp only [sumLoop] at h
      obtain ⟨x, hx, h⟩ := pbind_eq_ok _ _ _ h
      have hxwf : chainWF x.2 = true :=
        parse_difference_wf fuel s _ x.1 x.2 hx
      have happ : chainWFList (operands ++ [x.2]) = true := by
        rw [chainWFList_append, hops, hxwf]
        rfl
      split at h
      · simp at h
      · split at h
        · have := sumLoop_wf fuel s _ (operands ++ [x.2]) p' out happ h
          refine ⟨this.1, ?_⟩
          have h2 := this.2
          simp at h2
          omega
        · simp only [Option.some.injEq, Except.ok.injEq, Prod.mk.injEq] at h
          have hout : out = operands ++ [x.2] := h.2.symm
          rw [hout]
          simp [happ]

/-- Chain arity of parse_expression results. -/
theorem parse_expression_wf : ∀ (fuel : Nat) (s : List Char)
    (ctx c : ScanContext) (node : ExpressionNode),
    parse_expression fuel s ctx = some (.ok (c, node)) → chainWF node = true
  | 0, s, ctx, c, node => by
      intro h
      simp [parse_expression] at h
  | fuel + 1, s, ctx, c, node => by
      intro h
      simp only [parse_expression] at h
      exact parse_sum_wf fuel s ctx c node h

end

/-- Chain arity of top-level parse results. -/
theorem parse_wf (fuel : Nat) (s : List Char) (ctx c : ScanContext)
    (node : ExpressionNode)
    (h : parse fuel s ctx = some (.ok (c, node))) : chainWF node = true := by
  match fuel with
  | 0 => simp [parse] at h
  | fuel + 1 =>
      simp only [parse] at h
      split at h
      · simp at h
      · simp at h
      · rename_i a b heq
        split at h
        · simp at h
        · simp only [Option.some.injEq, Except.ok.injEq, Prod.mk.injEq] at h
          rw [← h.2]
          exact parse_expression_wf fuel s ctx a b heq

/-- Claim C4 (confirmed).  Every Sum, Difference, Product or Quotient node
produced by the top-level parse on any input has at least two operands; and
when no operator follows the first operand, parse_sum and parse_quotient
return the bare child node unchanged rather than wrapping it in a chain
node. -/
theorem C4_chain_nodes_arity :
    (∀ (fuel : Nat) (s : List Char) (ctx c : ScanContext)
        (node : ExpressionNode),
      parse fuel s ctx = some (.ok (c, node)) → chainWF node = true) ∧
    (∀ (fuel : Nat) (s : List Char) (ctx : ScanContext) (c0 : ScanContext)
        (x : ScanContext × ExpressionNode) (c2 : ScanContext)
        (p3 : ScanPosition),
      parse_whitespace s ctx = .ok c0 →
      parse_difference fuel s (true, c0.2) = some (.ok x) →
      parse_whitespace s x.1 = .ok c2 →
      scan_literal s c2 ['+'] = (false, p3) →
      parse_sum (fuel + 1) s ctx = some (.ok ((true, x.1.2), x.2))) ∧
    (∀ (fuel : Nat) (s : List Char) (ctx : ScanContext) (c0 : ScanContext)
        (x : ScanContext × ExpressionNode) (c2 : ScanContext)
        (p3 : ScanPosition),
      parse_whitespace s ctx = .ok c0 →
      parse_power fuel s (true, c0.2) = some (.ok x) →
      parse_whitespace s x.1 = .ok c2 →
      scan_literal s c2 ['/'] = (false, p3) →
      parse_quotient (fuel + 1) s ctx = some (.ok ((true, x.1.2), x.2))) := by
  refine ⟨parse_wf, ?_, ?_⟩
  · intro fuel s ctx c0 x c2 p3 h1 h2 h3 h4
    simp [parse_sum, h1, h2, h3, h4, pbind]
  · intro fuel s ctx c0 x c2 p3 h1 h2 h3 h4
    simp [parse_quotient, h1, h2, h3, h4, pbind]

/-- Witness for claim C4: the arity part applied to the parse of one plus
two, whose Sum node has exactly the two integer operands. -/
theorem C4_chain_nodes_arity_witness :
    chainWF (.Sum ⟨ScanPosition.start, ⟨3, 3, 0, 0, 0⟩⟩
      [.Integer ⟨ScanPosition.start, ⟨1, 1, 0, 0, 0⟩⟩ 1,
       .Integer ⟨⟨2, 2, 0, 0, 0⟩, ⟨3, 3, 0, 0, 0⟩⟩ 2]) = true :=
  C4_chain_nodes_arity.1 20 "1+2".toList (true, ScanPosition.start)
    (true, ⟨3, 3, 0, 0, 0⟩)
    (.Sum ⟨ScanPosition.start, ⟨3, 3, 0, 0, 0⟩⟩
      [.Integer ⟨ScanPosition.start, ⟨1, 1, 0, 0, 0⟩⟩ 1,
       .Integer ⟨⟨2, 2, 0, 0, 0⟩, ⟨3, 3, 0, 0, 0⟩⟩ 2]) (by rfl)

/-! ### src/collection/link_list.rs -/

/-- Embedding of struct LinkList: the chain of nodes is the underlying list,
the cached element count is the size field. -/
structure LinkList (α : Type) where
  size : Nat
  list : List α
deriving Repr, DecidableEq

namespace LinkList

variable {α β : Type}

/-- Embedding of LinkList::new. -/
def new : LinkList α :=
  ⟨0, []⟩

/-- Embedding of LinkList::is_empty. -/
def is_empty (l : LinkList α) : Bool :=
  l.list.isEmpty

/-- Embedding of LinkList::is_not_empty. -/
def is_not_empty (l : LinkList α) : Bool :=
  !l.list.isEmpty

/-- Embedding of LinkList::len (it returns the cached size field). -/
def len (l : LinkList α) : Nat :=
  l.size

/-- Embedding of LinkList::head. -/
def head (l : LinkList α) : Option α :=
  match l.list with
  | [] => none
  | x :: _ => some x

/-- Embedding of LinkList::tail: the empty list has none; a one-element list
has the fresh empty list; otherwise the size field is decremented. -/
def tail (l : LinkList α) : Option (LinkList α) :=
  match l.list with
  | [] => none
  | _ :: rest =>
      match rest with
      | [] => some new
      | _ => some ⟨l.size - 1, rest⟩

/-- The tail().unwrap() of the loops.  Every loop in the source guards it
with is_not_empty (or a count below the cached size), so the unwrap cannot
panic there; on the empty list this returns the empty list. -/
def tailD (l : LinkList α) : LinkList α :=
  (l.tail).getD new

/-- Embedding of LinkList::insert (prepend at the head). -/
def insert (l : LinkList α) (e : α) : LinkList α :=
  match l.list with
  | [] => ⟨1, [e]⟩
  | _ => ⟨l.size + 1, e :: l.list⟩

/-- Embedding of LinkList::of_one. -/
def of_one (e : α) : LinkList α := new.insert e

/-- Embedding of LinkList::of_two. -/
def of_two (e e2 : α) : LinkList α := (new.insert e2).insert e

/-- Embedding of LinkList::of_three. -/
def of_three (e e2 e3 : α) : LinkList α := ((new.insert e3).insert e2).insert e

/-- Embedding of LinkList::of_four. -/
def of_four (e e2 e3 e4 : α) : LinkList α :=
  (((new.insert e4).insert e3).insert e2).insert e

/-- The loop of LinkList::reverse over the node chain. -/
def revAux : List α → List α → List α
  | [], acc => acc
  | x :: xs, acc => revAux xs (x :: acc)

/-- Embedding of LinkList::reverse (the size field is carried over). -/
def reverse (l : LinkList α) : LinkList α :=
  match l.list with
  | [] => new
  | x :: xs => ⟨l.size, revAux xs [x]⟩

/-- Embedding of LinkList::append (reverse, insert, reverse). -/
def append (l : LinkList α) (e : α) : LinkList α :=
  (l.reverse.insert e).reverse

@[simp] theorem tailD_list (l : LinkList α) : (tailD l).list = l.list.tail := by
  match l with
  | ⟨s, []⟩ => rfl
  | ⟨s, [x]⟩ => rfl
  | ⟨s, x :: y :: r⟩ => rfl

/-- The while loop of LinkList::concat, prepending the other list's elements
onto the reversed receiver. -/
def concatLoop (acc other : LinkList α) : LinkList α :=
  match h : other.list with
  | [] => acc
  | x :: _ => concatLoop (acc.insert x) (tailD other)
termination_by other.list.length
decreasing_by simp [h]

/-- Embedding of LinkList::concat. -/
def concat (l other : LinkList α) : LinkList α :=
  if l.is_empty then other
  else if other.is_empty then l
  else (concatLoop l.reverse other).reverse

/-- The counter loops of insert_at and remove_at: move index elements from
the list onto the left accumulator.  When the list runs out first the Rust
code panics on head().unwrap(); that path is unreachable whenever the cached
size is truthful, and is modelled as stopping early. -/
def splitCount : Nat → LinkList α → LinkList α → LinkList α × LinkList α
  | 0, left, list => (left, list)
  | k + 1, left, list =>
      match list.list with
      | [] => (left, list)
      | x :: _ => splitCount k (left.insert x) (tailD list)

/-- The re-insertion loops: push the left accumulator back onto the list. -/
def reinsert (left list : LinkList α) : LinkList α :=
  match h : left.list with
  | [] => list
  | x :: _ => reinsert (tailD left) (list.insert x)
termination_by left.list.length
decreasing_by simp [h]

/-- Embedding of LinkList::insert_at. -/
def insert_at (l : LinkList α) (index : Nat) (e : α) : LinkList α :=
  if l.size ≤ index then l.append e
  else if index = 0 then l.insert e
  else
    let lr := splitCount index new l
    reinsert lr.1 (lr.2.insert e)

/-- Embedding of LinkList::remove_at.  Popping the indexed element is
tail().unwrap(); under a truthful size and index < size the list there is
never empty. -/
def remove_at (l : LinkList α) (index : Nat) : LinkList α :=
  if l.is_empty || l.size ≤ index then l
  else
    let lr := splitCount index new l
    reinsert lr.1 (tailD lr.2)

/-- The guarded counter loops of LinkList::swap (they test is_empty and stop
early, so the unwrap inside cannot panic). -/
def splitCountG : Nat → LinkList α → LinkList α → LinkList α × LinkList α
  | 0, left, list => (left, list)
  | k + 1, left, list =>
      match list.list with
      | [] => (left, list)
      | x :: _ => splitCountG k (left.insert x) (tailD list)

/-- Steps 1 to 6 of LinkList::swap once the indices are ordered, distinct
and in range: split at i, take the ith element, split up to j, take the jth
element, then rebuild with the two elements exchanged.  The two unwraps of
the ith and jth elements panic in Rust when the cached size lies; those
paths are unreachable under a truthful size and are modelled by returning
the receiver. -/
def swapBody (l : LinkList α) (i j : Nat) : LinkList α :=
  let s1 := splitCountG i new l
  match s1.2.list with
  | [] => l
  | ith :: _ =>
      let list2 := tailD s1.2
      let s2 := splitCountG (j - (i + 1)) new list2
      match s2.2.list with
      | [] => l
      | jth :: _ =>
          let list4 := tailD s2.2
          let list5 := reinsert s2.1 (list4.insert ith)
          reinsert s1.1 (list5.insert jth)

/-- Embedding of LinkList::swap. -/
def swap (l : LinkList α) (i j : Nat) : LinkList α :=
  if l.is_empty then new
  else if i = j then l
  else
    let p := if j < i then (j, i) else (i, j)
    if l.size ≤ p.1 then l
    else if l.size ≤ p.2 then l.remove_at p.1
    else swapBody l p.1 p.2

/-- The inner loop of LinkList::permute: prepend the fixed element onto each
permutation of the rest and collect the results. -/
def permInner (x : α) (right results : LinkList (LinkList α)) :
    LinkList (LinkList α) :=
  match h : right.list with
  | [] => results
  | r :: _ => permInner x (tailD right) (results.insert (r.insert x))
termination_by right.list.length
decreasing_by simp [h]

mutual

/-- Embedding of LinkList::permute, indexed by fuel (the source recursion
terminates because remove_at shortens the list; the fuel is spent once per
recursion step and once per loop iteration, so any fuel above the square of
the length behaves like the source). -/
def permuteF : Nat → LinkList α → LinkList (LinkList α)
  | 0, _ => new
  | fuel + 1, l =>
      if l.is_empty then new
      else if l.size = 1 then new.insert l
      else permLoop fuel l 0 l new

/-- The outer loop of LinkList::permute. -/
def permLoop : Nat → LinkList α → Nat → LinkList α →
    LinkList (LinkList α) → LinkList (LinkList α)
  | 0, _, _, _, results => results
  | fuel + 1, self, i, left, results =>
      match left.list with
      | [] => results
      | x :: _ =>
          permLoop fuel self (i + 1) (tailD left)
            (permInner x (permuteF fuel (self.remove_at i)) results)

end

/-- The loop of LinkList::map (insert mapped values, reversed at the end). -/
def mapLoop (f : α → β) (list : LinkList α) (acc : LinkList β) :
    LinkList β :=
  match h : list.list with
  | [] => acc
  | x :: _ => mapLoop f (tailD list) (acc.insert (f x))
termination_by list.list.length
decreasing_by simp [h]

/-- Embedding of LinkList::map. -/
def map (f : α → β) (l : LinkList α) : LinkList β :=
  if l.is_empty then new else (mapLoop f l new).reverse

/-- The loop of LinkList::filter. -/
def filterLoop (pred : α → Bool) (list acc : LinkList α) : LinkList α :=
  match h : list.list with
  | [] => acc
  | x :: _ =>
      filterLoop pred (tailD list) (if pred x then acc.insert x else acc)
termination_by list.list.length
decreasing_by simp [h]

/-- Embedding of LinkList::filter. -/
def filter (pred : α → Bool) (l : LinkList α) : LinkList α :=
  if l.is_empty then l else (filterLoop pred l new).reverse

/-- The loop of LinkList::fatten (wrap each element in a singleton list). -/
def fattenLoop (list : LinkList α) (acc : LinkList (LinkList α)) :
    LinkList (LinkList α) :=
  match h : list.list with
  | [] => acc
  | x :: _ => fattenLoop (tailD list) (acc.insert (new.insert x))
termination_by list.list.length
decreasing_by simp [h]

/-- Embedding of LinkList::fatten. -/
def fatten (l : LinkList α) : LinkList (LinkList α) :=
  (fattenLoop l new).reverse

/-- The loop of LinkList::flatten. -/
def flattenLoop (list : LinkList (LinkList α)) (acc : LinkList α) :
    LinkList α :=
  match h : list.list with
  | [] => acc
  | x :: _ => flattenLoop (tailD list) (acc.concat x)
termination_by list.list.length
decreasing_by simp [h]

/-- Embedding of LinkList::flatten. -/
def flatten (l : LinkList (LinkList α)) : LinkList α :=
  if l.is_empty then new else flattenLoop l new

/-- The inner loop of LinkList::combine: append each element of the flat
list onto the current fat head. -/
def combineInner (fathead : LinkList α) (list : LinkList α)
    (acc : LinkList (LinkList α)) : LinkList (LinkList α) :=
  match h : list.list with
  | [] => acc
  | x :: _ => combineInner fathead (tailD list) (acc.insert (fathead.append x))
termination_by list.list.length
decreasing_by simp [h]

/-- The outer loop of LinkList::combine. -/
def combineOuter (fatlist : LinkList (LinkList α)) (flatlist : LinkList α)
    (acc : LinkList (LinkList α)) : LinkList (LinkList α) :=
  match h : fatlist.list with
  | [] => acc
  | fh :: _ => combineOuter (tailD fatlist) flatlist (combineInner fh flatlist acc)
termination_by fatlist.list.length
decreasing_by simp [h]

/-- Embedding of LinkList::combine.  An empty flat list returns the receiver
unchanged; an empty receiver returns the fattened flat list. -/
def combine (self : LinkList (LinkList α)) (flatlist : LinkList α) :
    LinkList (LinkList α) :=
  if flatlist.is_empty then self
  else if self.is_empty then flatlist.fatten
  else combineOuter self flatlist new

/-- Embedding of the private accumulate_combinations helper. -/
def accumulate_combinations (self acc : LinkList (LinkList α)) :
    LinkList (LinkList α) :=
  match h : self.list with
  | [] => acc
  | x :: _ => accumulate_combinations (tailD self) (acc.combine x)
termination_by self.list.length
decreasing_by simp [h]

/-- Embedding of LinkList::combinations. -/
def combinations (self : LinkList (LinkList α)) : LinkList (LinkList α) :=
  accumulate_combinations self new

end LinkList

/-! ### src/commute/helper.rs -/

/-- The while loop of formatStringOperands, fuel-indexed because the source
loop never advances the operand list: it repeatedly appends the operator and
the current head.  Fuel exhaustion (none) is the divergence of the loop. -/
def fmtLoop : Nat → LinkList String → String → String → Option String
  | 0, _, _, _ => none
  | fuel + 1, operands, operator, s =>
      match operands.list with
      | [] => some s
      | x :: _ => fmtLoop fuel operands operator (s ++ " " ++ operator ++ " " ++ x)

/-- Embedding of formatStringOperands from src/commute/helper.rs: the head
becomes the initial string, the operands advance once past the head, and the
loop then runs on a list it never shrinks. -/
def formatStringOperands (fuel : Nat) (operands : LinkList String)
    (operator : String) : Option String :=
  match operands.list with
  | [] => some ""
  | x :: _ => fmtLoop fuel (LinkList.tailD operands) operator x

/-- A nonempty operand list keeps the format loop running forever. -/
theorem fmtLoop_nonempty_diverges (fuel : Nat) :
    ∀ (l : LinkList String) (operator s : String), l.list ≠ [] →
    fmtLoop fuel l operator s = none := by
  induction fuel with
  | zero => intro l operator s _; rfl
  | succ fuel ih =>
      intro l operator s hne
      match hl : l.list with
      | [] => exact absurd hl hne
      | x :: rest =>
          simp only [fmtLoop, hl]
          exact ih l operator _ (by rw [hl]; simp)

/-- Claim C3 (code_bug).  Formatting a chain of two or more operand strings
never terminates, for every operator: the while loop in formatStringOperands
never advances its operand list (and, further up, commute_chained_operands
ignores its operator parameter and hard-codes the plus sign while the Sum
and Product arms of generateCommutedExpressions pass the two operators
swapped).  The spec's joining of Sum operands with the plus operator and
Product operands with the star operator, each surrounded by single spaces,
matches the commented-out Java reference the Rust was ported from, not the
Rust code. -/
theorem C3_formatStringOperands_diverges (fuel : Nat) (operator : String) :
    formatStringOperands fuel (LinkList.of_two "2" "3") operator = none := by
  have h2 : (LinkList.of_two "2" "3").list = ["2", "3"] := rfl
  simp only [formatStringOperands, h2]
  apply fmtLoop_nonempty_diverges
  simp [LinkList.tailD_list, h2]

namespace LinkList

variable {α β : Type}

/-- The cached-size invariant of claim C10: the size field equals the number
of nodes in the chain. -/
def sizeInv (l : LinkList α) : Prop :=
  l.size = l.list.length

instance decSizeInv (l : LinkList α) : Decidable (sizeInv l) :=
  Nat.decEq l.size l.list.length

@[simp] theorem new_list : (new : LinkList α).list = [] := rfl

@[simp] theorem insert_list (l : LinkList α) (e : α) :
    (l.insert e).list = e :: l.list := by
  match l with
  | ⟨s, []⟩ => rfl
  | ⟨s, x :: xs⟩ => rfl

theorem sizeInv_new : sizeInv (new : LinkList α) := rfl

theorem sizeInv_insert {l : LinkList α} (h : sizeInv l) (e : α) :
    sizeInv (l.insert e) := by
  match l with
  | ⟨s, []⟩ => simp [sizeInv, insert]
  | ⟨s, x :: xs⟩ =>
      simp [sizeInv, insert] at *
      omega

theorem revAux_eq (xs acc : List α) : revAux xs acc = xs.reverse ++ acc := by
  induction xs generalizing acc with
  | nil => simp [revAux]
  | cons x xs ih => simp [revAux, ih]

@[simp] theorem reverse_list (l : LinkList α) :
    (l.reverse).list = l.list.reverse := by
  match l with
  | ⟨s, []⟩ => rfl
  | ⟨s, x :: xs⟩ => simp [reverse, revAux_eq]

theorem sizeInv_reverse {l : LinkList α} (h : sizeInv l) :
    sizeInv l.reverse := by
  match l with
  | ⟨s, []⟩ => simp [reverse, sizeInv, new]
  | ⟨s, x :: xs⟩ =>
      simp [sizeInv, reverse, revAux_eq] at *
      omega

@[simp] theorem append_list (l : LinkList α) (e : α) :
    (l.append e).list = l.list ++ [e] := by
  simp [append]

theorem sizeInv_append {l : LinkList α} (h : sizeInv l) (e : α) :
    sizeInv (l.append e) :=
  sizeInv_reverse (sizeInv_insert (sizeInv_reverse h) e)

theorem sizeInv_tail {l t : LinkList α} (h : sizeInv l)
    (ht : l.tail = some t) : sizeInv t := by
  match l with
  | ⟨s, []⟩ => simp [tail] at ht
  | ⟨s, [x]⟩ =>
      simp [tail] at ht
      rw [← ht]
      rfl
  | ⟨s, x :: y :: r⟩ =>
      simp [sizeInv] at h
      simp [tail] at ht
      rw [← ht]
      simp [sizeInv]
      omega

theorem sizeInv_tailD {l : LinkList α} (h : sizeInv l) :
    sizeInv (tailD l) := by
  match l with
  | ⟨s, []⟩ => rfl
  | ⟨s, [x]⟩ => rfl
  | ⟨s, x :: y :: r⟩ =>
      simp [sizeInv, tailD, tail] at *
      omega

theorem concatLoop_list (acc other : LinkList α) :
    (concatLoop acc other).list = other.list.reverse ++ acc.list := by
  induction acc, other using concatLoop.induct with
  | case1 acc other h =>
      rw [concatLoop]
      split
      · simp [h]
      · rename_i x2 t2 heq
        rw [h] at heq
        cases heq
  | case2 acc other x t h ih =>
      rw [concatLoop]
      split
      · rename_i heq
        rw [h] at heq
        cases heq
      · rename_i x2 t2 heq
        rw [h] at heq
        cases heq
        rw [ih]
        simp [h]

theorem sizeInv_concatLoop (acc other : LinkList α) (h1 : sizeInv acc)
    (h2 : sizeInv other) : sizeInv (concatLoop acc other) := by
  induction acc, other using concatLoop.induct with
  | case1 acc other h =>
      rw [concatLoop]
      split
      · exact h1
      · rename_i x2 t2 heq
        rw [h] at heq
        cases heq
  | case2 acc other x t h ih =>
      rw [concatLoop]
      split
      · rename_i heq
        rw [h] at heq
        cases heq
      · rename_i x2 t2 heq
        rw [h] at heq
        cases heq
        exact ih (sizeInv_insert h1 x) (sizeInv_tailD h2)

theorem sizeInv_concat {l other : LinkList α} (h1 : sizeInv l)
    (h2 : sizeInv other) : sizeInv (l.concat other) := by
  unfold concat
  split
  · exact h2
  · split
    · exact h1
    · exact sizeInv_reverse (sizeInv_concatLoop l.reverse other (sizeInv_reverse h1) h2)

theorem concat_list (l other : LinkList α) :
    (l.concat other).list = l.list ++ other.list := by
  unfold concat
  split
  · rename_i h
    simp [is_empty, List.isEmpty_iff] at h
    simp [h]
  · split
    · rename_i h
      simp [is_empty, List.isEmpty_iff] at h
      simp [h]
    · simp [concatLoop_list]

theorem sizeInv_splitCount : ∀ (k : Nat) (left list : LinkList α),
    sizeInv left → sizeInv list →
    sizeInv (splitCount k left list).1 ∧ sizeInv (splitCount k left list).2 := by
  intro k
  induction k with
  | zero => intro left list h1 h2; exact ⟨h1, h2⟩
  | succ k ih =>
      intro left list h1 h2
      match h : list.list with
      | [] => simp only [splitCount, h]; exact ⟨h1, h2⟩
      | x :: t =>
          simp only [splitCount, h]
          exact ih _ _ (sizeInv_insert h1 x) (sizeInv_tailD h2)

theorem sizeInv_reinsert (left list : LinkList α) (h1 : sizeInv left)
    (h2 : sizeInv list) : sizeInv (reinsert left list) := by
  induction left, list using reinsert.induct with
  | case1 left list h =>
      rw [reinsert]
      split
      · exact h2
      · rename_i x2 t2 heq
        rw [h] at heq
        cases heq
  | case2 left list x t h ih =>
      rw [reinsert]
      split
      · rename_i heq
        rw [h] at heq
        cases heq
      · rename_i x2 t2 heq
        rw [h] at heq
        cases heq
        exact ih (sizeInv_tailD h1) (sizeInv_insert h2 x)

theorem sizeInv_insert_at {l : LinkList α} (h : sizeInv l) (index : Nat)
    (e : α) : sizeInv (l.insert_at index e) := by
  unfold insert_at
  split
  · exact sizeInv_append h e
  · split
    · exact sizeInv_insert h e
    · exact sizeInv_reinsert _ _ (sizeInv_splitCount index new l sizeInv_new h).1
        (sizeInv_insert (sizeInv_splitCount index new l sizeInv_new h).2 e)

theorem sizeInv_remove_at {l : LinkList α} (h : sizeInv l) (index : Nat) :
    sizeInv (l.remove_at index) := by
  unfold remove_at
  split
  · exact h
  · exact sizeInv_reinsert _ _ (sizeInv_splitCount index new l sizeInv_new h).1
      (sizeInv_tailD (sizeInv_splitCount index new l sizeInv_new h).2)

theorem sizeInv_splitCountG : ∀ (k : Nat) (left list : LinkList α),
    sizeInv left → sizeInv list →
    sizeInv (splitCountG k left list).1 ∧ sizeInv (splitCountG k left list).2 := by
  intro k
  induction k with
  | zero => intro left list h1 h2; exact ⟨h1, h2⟩
  | succ k ih =>
      intro left list h1 h2
      match h : list.list with
      | [] => simp only [splitCountG, h]; exact ⟨h1, h2⟩
      | x :: t =>
          simp only [splitCountG, h]
          exact ih _ _ (sizeInv_insert h1 x) (sizeInv_tailD h2)

theorem sizeInv_swapBody {l : LinkList α} (h : sizeInv l) (i j : Nat) :
    sizeInv (swapBody l i j) := by
  have hs1 := sizeInv_splitCountG i new l sizeInv_new h
  match h1 : (splitCountG i new l).2.list with
  | [] => simp only [swapBody, h1]; exact h
  | ith :: r1 =>
      have hs2 := sizeInv_splitCountG (j - (i + 1)) new
        (tailD (splitCountG i new l).2) sizeInv_new (sizeInv_tailD hs1.2)
      match h2 : (splitCountG (j - (i + 1)) new
          (tailD (splitCountG i new l).2)).2.list with
      | [] => simp only [swapBody, h1, h2]; exact h
      | jth :: r2 =>
          simp only [swapBody, h1, h2]
          exact sizeInv_reinsert _ _ hs1.1
            (sizeInv_insert
              (sizeInv_reinsert _ _ hs2.1
                (sizeInv_insert (sizeInv_tailD hs2.2) ith)) jth)

theorem sizeInv_swap {l : LinkList α} (h : sizeInv l) (i j : Nat) :
    sizeInv (l.swap i j) := by
  by_cases h1 : l.is_empty
  · simp only [swap, h1, if_true]
    exact sizeInv_new
  · by_cases h2 : i = j
    · simp [swap, h1, h2]
      exact h
    · by_cases h3 : j < i
      · simp only [swap, h1, h2, h3, if_false, if_true, Bool.false_eq_true]
        split
        · exact h
        · split
          · exact sizeInv_remove_at h _
          · exact sizeInv_swapBody h _ _
      · simp only [swap, h1, h2, h3, if_false, if_true, Bool.false_eq_true]
        split
        · exact h
        · split
          · exact sizeInv_remove_at h _
          · exact sizeInv_swapBody h _ _

theorem sizeInv_permInner (x : α) (right results : LinkList (LinkList α))
    (hr : ∀ r ∈ right.list, sizeInv r) (h1 : sizeInv results)
    (h2 : ∀ e ∈ results.list, sizeInv e) :
    sizeInv (permInner x right results) ∧
      ∀ e ∈ (permInner x right results).list, sizeInv e := by
  induction right, results using permInner.induct x with
  | case1 right results h =>
      rw [permInner]
      split
      · exact ⟨h1, h2⟩
      · rename_i r2 t2 heq
        rw [h] at heq
        cases heq
  | case2 right results r t h ih =>
      rw [permInner]
      split
      · rename_i heq
        rw [h] at heq
        cases heq
      · rename_i r2 t2 heq
        rw [h] at heq
        cases heq
        apply ih
        · intro r2 hm
          simp only [tailD_list, h, List.tail_cons] at hm
          exact hr r2 (by rw [h]; exact List.mem_cons_of_mem r hm)
        · exact sizeInv_insert h1 _
        · intro e he
          rw [insert_list] at he
          rcases List.mem_cons.mp he with rfl | he
          · exact sizeInv_insert (hr r (by rw [h]; exact List.mem_cons_self r t)) x
          · exact h2 e he

mutual

theorem sizeInv_permuteF : ∀ (fuel : Nat) (l : LinkList α), sizeInv l →
    sizeInv (permuteF fuel l) ∧ ∀ e ∈ (permuteF fuel l).list, sizeInv e
  | 0, l, _ => by
      constructor
      · exact sizeInv_new
      · intro e he
        simp [permuteF, new] at he
  | fuel + 1, l, h => by
      rw [permuteF]
      split
      · exact ⟨sizeInv_new, by intro e he; simp [new] at he⟩
      · split
        · constructor
          · exact sizeInv_insert sizeInv_new l
          · intro e he
            rw [insert_list] at he
            rcases List.mem_cons.mp he with rfl | he
            · exact h
            · simp [new] at he
        · exact sizeInv_permLoop fuel l 0 l new h sizeInv_new
            (by intro e he; simp [new] at he)

theorem sizeInv_permLoop : ∀ (fuel : Nat) (self : LinkList α) (i : Nat)
    (left : LinkList α) (results : LinkList (LinkList α)),
    sizeInv self → sizeInv results → (∀ e ∈ results.list, sizeInv e) →
    sizeInv (permLoop fuel self i left results) ∧
      ∀ e ∈ (permLoop fuel self i left results).list, sizeInv e
  | 0, self, i, left, results, hs, h1, h2 => ⟨h1, h2⟩
  | fuel + 1, self, i, left, results, hs, h1, h2 => by
      rw [permLoop]
      split
      · exact ⟨h1, h2⟩
      · rename_i x t heq
        have hperm := sizeInv_permuteF fuel (self.remove_at i)
          (sizeInv_remove_at hs i)
        have hinner := sizeInv_permInner x (permuteF fuel (self.remove_at i))
          results hperm.2 h1 h2
        exact sizeInv_permLoop fuel self (i + 1) (tailD left) _ hs
          hinner.1 hinner.2

end

theorem sizeInv_mapLoop (f : α → β) (list : LinkList α) (acc : LinkList β)
    (h1 : sizeInv acc) : sizeInv (mapLoop f list acc) := by
  induction list, acc using mapLoop.induct f with
  | case1 list acc h =>
      rw [mapLoop]
      split
      · exact h1
      · rename_i x2 t2 heq
        rw [h] at heq
        cases heq
  | case2 list acc x t h ih =>
      rw [mapLoop]
      split
      · rename_i heq
        rw [h] at heq
        cases heq
      · rename_i x2 t2 heq
        rw [h] at heq
        cases heq
        exact ih (sizeInv_insert h1 (f x))

theorem sizeInv_map (f : α → β) {l : LinkList α} (h : sizeInv l) :
    sizeInv (l.map f) := by
  unfold map
  split
  · exact sizeInv_new
  · exact sizeInv_reverse (sizeInv_mapLoop f l new sizeInv_new)

theorem sizeInv_filterLoop (pred : α → Bool) (list acc : LinkList α)
    (h1 : sizeInv acc) : sizeInv (filterLoop pred list acc) := by
  induction list, acc using filterLoop.induct pred with
  | case1 list acc h =>
      rw [filterLoop]
      split
      · exact h1
      · rename_i x2 t2 heq
        rw [h] at heq
        cases heq
  | case2 list acc x t h ih =>
      rw [filterLoop]
      split
      · rename_i heq
        rw [h] at heq
        cases heq
      · rename_i x2 t2 heq
        rw [h] at heq
        cases heq
        apply ih
        split
        · exact sizeInv_insert h1 x
        · exact h1

theorem sizeInv_filter (pred : α → Bool) {l : LinkList α} (h : sizeInv l) :
    sizeInv (l.filter pred) := by
  unfold filter
  split
  · exact h
  · exact sizeInv_reverse (sizeInv_filterLoop pred l new sizeInv_new)

theorem fattenLoop_list (list : LinkList α) (acc : LinkList (LinkList α)) :
    (fattenLoop list acc).list =
      (list.list.map (fun x => new.insert x)).reverse ++ acc.list := by
  induction list, acc using fattenLoop.induct with
  | case1 list acc h =>
      rw [fattenLoop]
      split
      · simp [h]
      · rename_i x2 t2 heq
        rw [h] at heq
        cases heq
  | case2 list acc x t h ih =>
      rw [fattenLoop]
      split
      · rename_i heq
        rw [h] at heq
        cases heq
      · rename_i x2 t2 heq
        rw [h] at heq
        cases heq
        rw [ih]
        simp [h]

theorem fatten_list (l : LinkList α) :
    l.fatten.list = l.list.map (fun x => new.insert x) := by
  simp [fatten, fattenLoop_list]

theorem sizeInv_fattenLoop (list : LinkList α) (acc : LinkList (LinkList α))
    (h1 : sizeInv acc) : sizeInv (fattenLoop list acc) := by
  induction list, acc using fattenLoop.induct with
  | case1 list acc h =>
      rw [fattenLoop]
      split
      · exact h1
      · rename_i x2 t2 heq
        rw [h] at heq
        cases heq
  | case2 list acc x t h ih =>
      rw [fattenLoop]
      split
      · rename_i heq
        rw [h] at heq
        cases heq
      · rename_i x2 t2 heq
        rw [h] at heq
        cases heq
        exact ih (sizeInv_insert h1 _)

theorem sizeInv_fatten (l : LinkList α) :
    sizeInv l.fatten ∧ ∀ e ∈ l.fatten.list, sizeInv e := by
  constructor
  · exact sizeInv_reverse (sizeInv_fattenLoop l new sizeInv_new)
  · intro e he
    rw [fatten_list] at he
    rcases List.mem_map.mp he with ⟨x, _, rfl⟩
    exact sizeInv_insert sizeInv_new x

theorem sizeInv_flattenLoop (list : LinkList (LinkList α)) (acc : LinkList α)
    (hl : ∀ e ∈ list.list, sizeInv e) (h1 : sizeInv acc) :
    sizeInv (flattenLoop list acc) := by
  induction list, acc using flattenLoop.induct with
  | case1 list acc h =>
      rw [flattenLoop]
      split
      · exact h1
      · rename_i x2 t2 heq
        rw [h] at heq
        cases heq
  | case2 list acc x t h ih =>
      rw [flattenLoop]
      split
      · rename_i heq
        rw [h] at heq
        cases heq
      · rename_i x2 t2 heq
        rw [h] at heq
        cases heq
        apply ih
        · intro e he
          simp only [tailD_list, h, List.tail_cons] at he
          exact hl e (by rw [h]; exact List.mem_cons_of_mem x he)
        · exact sizeInv_concat h1 (hl x (by rw [h]; exact List.mem_cons_self x t))

theorem sizeInv_flatten {l : LinkList (LinkList α)}
    (hl : ∀ e ∈ l.list, sizeInv e) : sizeInv l.flatten := by
  unfold flatten
  split
  · exact sizeInv_new
  · exact sizeInv_flattenLoop l new hl sizeInv_new

theorem combineInner_list (fathead : LinkList α) (list : LinkList α)
    (acc : LinkList (LinkList α)) :
    (combineInner fathead list acc).list =
      (list.list.map (fun x => fathead.append x)).reverse ++ acc.list := by
  induction list, acc using combineInner.induct fathead with
  | case1 list acc h =>
      rw [combineInner]
      split
      · simp [h]
      · rename_i x2 t2 heq
        rw [h] at heq
        cases heq
  | case2 list acc x t h ih =>
      rw [combineInner]
      split
      · rename_i heq
        rw [h] at heq
        cases heq
      · rename_i x2 t2 heq
        rw [h] at heq
        cases heq
        rw [ih]
        simp [h]

theorem sizeInv_combineInner (fathead : LinkList α) (list : LinkList α)
    (acc : LinkList (LinkList α)) (hf : sizeInv fathead) (h1 : sizeInv acc)
    (h2 : ∀ e ∈ acc.list, sizeInv e) :
    sizeInv (combineInner fathead list acc) ∧
      ∀ e ∈ (combineInner fathead list acc).list, sizeInv e := by
  induction list, acc using combineInner.induct fathead with
  | case1 list acc h =>
      rw [combineInner]
      split
      · exact ⟨h1, h2⟩
      · rename_i x2 t2 heq
        rw [h] at heq
        cases heq
  | case2 list acc x t h ih =>
      rw [combineInner]
      split
      · rename_i heq
        rw [h] at heq
        cases heq
      · rename_i x2 t2 heq
        rw [h] at heq
        cases heq
        apply ih
        · exact sizeInv_insert h1 _
        · intro e he
          rw [insert_list] at he
          rcases List.mem_cons.mp he with rfl | he
          · exact sizeInv_append hf x
          · exact h2 e he

theorem perm_shuffle (a b c : List β) :
    (a ++ (b.reverse ++ c)).Perm (b ++ (a ++ c)) := by
  refine (List.Perm.append_left a
    ((List.reverse_perm b).append_right c)).trans ?h
  rw [← List.append_assoc, ← List.append_assoc]
  exact List.perm_append_comm.append_right c

theorem combineOuter_perm (fatlist : LinkList (LinkList α))
    (flatlist : LinkList α) (acc : LinkList (LinkList α)) :
    ((combineOuter fatlist flatlist acc).list).Perm
      ((fatlist.list.flatMap
        (fun fh => flatlist.list.map (fun x => fh.append x))) ++ acc.list) := by
  induction fatlist, flatlist, acc using combineOuter.induct with
  | case1 fatlist flatlist acc h =>
      rw [combineOuter]
      split
      · simp [h]
      · rename_i x2 t2 heq
        rw [h] at heq
        cases heq
  | case2 fatlist flatlist acc fh t h ih =>
      rw [combineOuter]
      split
      · rename_i heq
        rw [h] at heq
        cases heq
      · rename_i x2 t2 heq
        rw [h] at heq
        cases heq
        refine ih.trans ?h
        rw [combineInner_list]
        simp only [tailD_list, h, List.tail_cons, List.flatMap_cons,
          List.append_assoc]
        exact perm_shuffle _ _ _

theorem sizeInv_combineOuter (fatlist : LinkList (LinkList α))
    (flatlist : LinkList α) (acc : LinkList (LinkList α))
    (hf : ∀ e ∈ fatlist.list, sizeInv e) (h1 : sizeInv acc)
    (h2 : ∀ e ∈ acc.list, sizeInv e) :
    sizeInv (combineOuter fatlist flatlist acc) ∧
      ∀ e ∈ (combineOuter fatlist flatlist acc).list, sizeInv e := by
  induction fatlist, flatlist, acc using combineOuter.induct with
  | case1 fatlist flatlist acc h =>
      rw [combineOuter]
      split
      · exact ⟨h1, h2⟩
      · rename_i x2 t2 heq
        rw [h] at heq
        cases heq
  | case2 fatlist flatlist acc fh t h ih =>
      rw [combineOuter]
      split
      · rename_i heq
        rw [h] at heq
        cases heq
      · rename_i x2 t2 heq
        rw [h] at heq
        cases heq
        have hinner := sizeInv_combineInner fh flatlist acc
          (hf fh (by rw [h]; exact List.mem_cons_self fh t)) h1 h2
        apply ih
        · intro e he
          simp only [tailD_list, h, List.tail_cons] at he
          exact hf e (by rw [h]; exact List.mem_cons_of_mem fh he)
        · exact hinner.1
        · exact hinner.2

theorem sizeInv_combine (self : LinkList (LinkList α)) (flatlist : LinkList α)
    (h1 : sizeInv self) (h2 : ∀ e ∈ self.list, sizeInv e) :
    sizeInv (self.combine flatlist) ∧
      ∀ e ∈ (self.combine flatlist).list, sizeInv e := by
  unfold combine
  split
  · exact ⟨h1, h2⟩
  · split
    · exact sizeInv_fatten flatlist
    · exact sizeInv_combineOuter self flatlist new h2 sizeInv_new
        (by intro e he; simp [new] at he)

theorem sizeInv_accumulate (self acc : LinkList (LinkList α))
    (h1 : sizeInv acc) (h2 : ∀ e ∈ acc.list, sizeInv e) :
    sizeInv (accumulate_combinations self acc) ∧
      ∀ e ∈ (accumulate_combinations self acc).list, sizeInv e := by
  induction self, acc using accumulate_combinations.induct with
  | case1 self acc h =>
      rw [accumulate_combinations]
      split
      · exact ⟨h1, h2⟩
      · rename_i x2 t2 heq
        rw [h] at heq
        cases heq
  | case2 self acc x t h ih =>
      rw [accumulate_combinations]
      split
      · rename_i heq
        rw [h] at heq
        cases heq
      · rename_i x2 t2 heq
        rw [h] at heq
        cases heq
        have hc := sizeInv_combine acc x h1 h2
        exact ih hc.1 hc.2

theorem sizeInv_combinations (self : LinkList (LinkList α)) :
    sizeInv (combinations self) ∧
      ∀ e ∈ (combinations self).list, sizeInv e := by
  unfold combinations
  exact sizeInv_accumulate self new sizeInv_new
    (by intro e he; simp [new] at he)

/-- One step of LinkList::combine at the level of the underlying plain
lists: an empty flat list leaves the accumulator unchanged, an empty
accumulator is replaced by the singletons of the flat list, and otherwise
every accumulated tuple is extended by every element of the flat list. -/
def combineStep (A : List (List α)) (s : List α) : List (List α) :=
  if s.isEmpty then A
  else if A.isEmpty then s.map (fun e => [e])
  else A.flatMap (fun a => s.map (fun e => a ++ [e]))

/-- Modelled from the spec: one step of the cartesian product, extending
every tuple by every element of the next sequence. -/
def cartStep (A : List (List α)) (s : List α) : List (List α) :=
  A.flatMap (fun a => s.map (fun e => a ++ [e]))

/-- Modelled from the spec: the cartesian product of a sequence of
sequences, every way of selecting one element from each inner sequence in
order; the empty outer sequence yields the single empty tuple. -/
def cartesianSpec (ss : List (List α)) : List (List α) :=
  ss.foldl cartStep [[]]

theorem combine_perm (acc : LinkList (LinkList α)) (s : LinkList α) :
    ((acc.combine s).list.map (fun e => e.list)).Perm
      (combineStep (acc.list.map (fun e => e.list)) s.list) := by
  by_cases hs : s.list.isEmpty
  · simp only [combine, combineStep, is_empty, hs, if_true]
    exact List.Perm.refl _
  · by_cases ha : acc.list.isEmpty
    · have ha' : acc.list = [] := List.isEmpty_iff.mp ha
      simp only [combine, combineStep, is_empty, hs, ha', Bool.false_eq_true,
        if_false, List.map_nil, List.isEmpty_nil, if_true]
      rw [fatten_list, List.map_map]
      have hcomp : ((fun e => LinkList.list e) ∘ fun x => new.insert x) =
          fun x : α => [x] := by
        funext x
        simp [new]
      rw [hcomp]
    · have ha' : acc.list ≠ [] := by simpa [List.isEmpty_iff] using ha
      have hA : (acc.list.map (fun e => e.list)).isEmpty = false := by
        simp [List.isEmpty_iff, ha']
      simp only [combine, combineStep, is_empty, hs, ha, hA,
        Bool.false_eq_true, if_false]
      refine ((combineOuter_perm acc s new).map (fun e => e.list)).trans ?_
      have heq : ((acc.list.flatMap fun fh =>
            s.list.map fun x => fh.append x) ++ new.list).map
            (fun e : LinkList α => e.list) =
          (acc.list.map fun e : LinkList α => e.list).flatMap
            fun a => s.list.map fun e => a ++ [e] := by
        simp only [new_list, List.append_nil, List.map_flatMap,
          List.flatMap_map, List.map_map]
        congr 1
        funext a
        simp [Function.comp_def, append_list]
      rw [heq]

theorem combineStep_perm_congr {A B : List (List α)} (h : A.Perm B)
    (s : List α) : (combineStep A s).Perm (combineStep B s) := by
  unfold combineStep
  by_cases hs : s.isEmpty
  · simp only [hs, if_true]
    exact h
  · rw [if_neg hs, if_neg hs]
    by_cases hA : A = []
    · have hB : B = [] := (hA ▸ h).symm.eq_nil
      simp [hA, hB]
    · have hB : B ≠ [] := fun hh => hA ((hh ▸ h).eq_nil)
      rw [if_neg (by simpa [List.isEmpty_iff] using hA),
          if_neg (by simpa [List.isEmpty_iff] using hB)]
      exact List.Perm.flatMap_right _ h

theorem foldl_combineStep_perm {A B : List (List α)} (h : A.Perm B) :
    ∀ ss : List (List α),
    (ss.foldl combineStep A).Perm (ss.foldl combineStep B) := by
  intro ss
  induction ss generalizing A B with
  | nil => simpa using h
  | cons s ss ih => simpa using ih (combineStep_perm_congr h s)

theorem accumulate_perm (self acc : LinkList (LinkList α)) :
    ((accumulate_combinations self acc).list.map (fun e => e.list)).Perm
      ((self.list.map (fun e => e.list)).foldl combineStep
        (acc.list.map (fun e => e.list))) := by
  induction self, acc using accumulate_combinations.induct with
  | case1 self acc h =>
      rw [accumulate_combinations]
      split
      · simp only [h, List.map_nil, List.foldl_nil]
        exact List.Perm.refl _
      · rename_i x2 t2 heq
        rw [h] at heq
        cases heq
  | case2 self acc x t h ih =>
      rw [accumulate_combinations]
      split
      · rename_i heq
        rw [h] at heq
        cases heq
      · rename_i x2 t2 heq
        rw [h] at heq
        cases heq
        refine ih.trans ?h
        simp only [tailD_list, h, List.tail_cons, List.map_cons,
          List.foldl_cons]
        exact foldl_combineStep_perm (combine_perm acc x) _

theorem combinations_perm (self : LinkList (LinkList α)) :
    ((combinations self).list.map (fun e => e.list)).Perm
      ((self.list.map (fun e => e.list)).foldl combineStep []) := by
  have h := accumulate_perm self new
  simpa [combinations, new] using h

theorem length_cartStep (A : List (List α)) (s : List α) :
    (cartStep A s).length = A.length * s.length := by
  unfold cartStep
  induction A with
  | nil => simp
  | cons a A ih =>
      simp only [List.flatMap_cons, List.length_append, List.length_map, ih,
        List.length_cons]
      ring

theorem cartStep_ne_nil {A : List (List α)} {s : List α} (hA : A ≠ [])
    (hs : s ≠ []) : cartStep A s ≠ [] := by
  have hA2 : A.length ≠ 0 := fun hz => hA (List.eq_nil_of_length_eq_zero hz)
  have hs2 : s.length ≠ 0 := fun hz => hs (List.eq_nil_of_length_eq_zero hz)
  intro hh
  have hlen := length_cartStep A s
  rw [hh] at hlen
  simp only [List.length_nil] at hlen
  exact absurd hlen.symm (Nat.mul_ne_zero hA2 hs2)

theorem foldl_combineStep_eq_cart :
    ∀ (ss : List (List α)) (A : List (List α)), A ≠ [] →
    ss.foldl combineStep A =
      (ss.filter (fun s => !s.isEmpty)).foldl cartStep A := by
  intro ss
  induction ss with
  | nil => intro A hA; rfl
  | cons s ss ih =>
      intro A hA
      by_cases hs : s.isEmpty
      · rw [List.foldl_cons, List.filter_cons, if_neg (by simp [hs])]
        have hstep : combineStep A s = A := by simp [combineStep, hs]
        rw [hstep]
        exact ih A hA
      · have hsne : s ≠ [] := by simpa [List.isEmpty_iff] using hs
        rw [List.foldl_cons, List.filter_cons, if_pos (by simp [hs]),
          List.foldl_cons]
        have hstep : combineStep A s = cartStep A s := by
          rw [combineStep, if_neg hs,
            if_neg (by simpa [List.isEmpty_iff] using hA)]
          rfl
        rw [hstep]
        exact ih _ (cartStep_ne_nil hA hsne)

theorem foldl_combineStep_nil : ∀ ss : List (List α),
    (ss.filter (fun s => !s.isEmpty) = [] → ss.foldl combineStep [] = []) ∧
    (ss.filter (fun s => !s.isEmpty) ≠ [] →
      ss.foldl combineStep [] =
        cartesianSpec (ss.filter (fun s => !s.isEmpty))) := by
  intro ss
  induction ss with
  | nil => exact ⟨fun _ => rfl, fun h => absurd rfl h⟩
  | cons s ss ih =>
      by_cases hs : s.isEmpty
      · rw [List.foldl_cons, List.filter_cons, if_neg (by simp [hs])]
        have hstep : combineStep ([] : List (List α)) s = [] := by
          simp [combineStep, hs]
        rw [hstep]
        exact ih
      · have hsne : s ≠ [] := by simpa [List.isEmpty_iff] using hs
        rw [List.foldl_cons, List.filter_cons, if_pos (by simp [hs])]
        have hstep : combineStep ([] : List (List α)) s =
            s.map (fun e => [e]) := by
          rw [combineStep, if_neg hs]
          simp
        have hmap : s.map (fun e => [e]) = cartStep [[]] s := by
          simp [cartStep]
        have hmne : s.map (fun e => [e]) ≠ [] := by
          intro hh
          exact hsne (by simpa using hh)
        constructor
        · intro hcon
          cases hcon
        · intro _
          rw [hstep, foldl_combineStep_eq_cart ss _ hmne, hmap]
          rfl

theorem foldl_cartStep_length : ∀ (ss : List (List α)) (A : List (List α)),
    (ss.foldl cartStep A).length = A.length * (ss.map List.length).prod := by
  intro ss
  induction ss with
  | nil => intro A; simp
  | cons s ss ih =>
      intro A
      simp only [List.foldl_cons, List.map_cons, List.prod_cons]
      rw [ih, length_cartStep]
      ring

theorem cartesianSpec_length (ss : List (List α)) :
    (cartesianSpec ss).length = (ss.map List.length).prod := by
  unfold cartesianSpec
  rw [foldl_cartStep_length]
  simp

/-- The underlying plain lists of the nonempty inner lists of a linked
list of linked lists, in order. -/
def nonemptyInnerLists (xss : LinkList (LinkList α)) : List (List α) :=
  (xss.list.map (fun e => e.list)).filter (fun s => !s.isEmpty)

end LinkList

/-- Claim C8 (corrected).  LinkList::combinations returns, up to order of
the resulting collection, exactly the cartesian product of the NONEMPTY
inner sequences, each tuple selecting one element from each nonempty inner
sequence in order, and its cached length is the product of their lengths;
when every inner sequence is empty (in particular for the empty outer
sequence) the result is the empty collection, not a single empty tuple,
and empty inner sequences are skipped rather than annihilating the
result. -/
theorem C8_cartesian (α : Type) (xss : LinkList (LinkList α)) :
    ((LinkList.nonemptyInnerLists xss).isEmpty = true →
      (LinkList.combinations xss).list = []) ∧
    ((LinkList.nonemptyInnerLists xss).isEmpty = false →
      ((LinkList.combinations xss).list.map (fun e => e.list)).Perm
        (LinkList.cartesianSpec (LinkList.nonemptyInnerLists xss)) ∧
      (LinkList.combinations xss).len =
        ((LinkList.nonemptyInnerLists xss).map List.length).prod) := by
  unfold LinkList.nonemptyInnerLists
  constructor
  · intro h
    have hfe := List.isEmpty_iff.mp h
    have hperm := LinkList.combinations_perm xss
    rw [(LinkList.foldl_combineStep_nil
      (xss.list.map (fun e => e.list))).1 hfe] at hperm
    exact List.map_eq_nil_iff.mp hperm.eq_nil
  · intro h
    have hfne : (xss.list.map (fun e => e.list)).filter
        (fun s => !s.isEmpty) ≠ [] := by
      intro hh
      simp [hh] at h
    have hcart := (LinkList.foldl_combineStep_nil
      (xss.list.map (fun e => e.list))).2 hfne
    have hperm := (LinkList.combinations_perm xss).trans
      (by rw [hcart])
    refine ⟨hperm, ?_⟩
    have hsz := (LinkList.sizeInv_combinations xss).1
    calc (LinkList.combinations xss).len
        = (LinkList.combinations xss).list.length := hsz
      _ = ((LinkList.combinations xss).list.map (fun e => e.list)).length :=
          by simp
      _ = (LinkList.cartesianSpec ((xss.list.map (fun e => e.list)).filter
            (fun s => !s.isEmpty))).length := hperm.length_eq
      _ = (((xss.list.map (fun e => e.list)).filter
            (fun s => !s.isEmpty)).map List.length).prod :=
          LinkList.cartesianSpec_length _

/-- Counterexample to claim C8 as written: the empty outer sequence yields
the empty collection (not one empty tuple), and an empty inner sequence is
skipped instead of emptying the result, so [[1], []] yields [[1]]. -/
theorem C8_cartesian_counterexample :
    (LinkList.combinations (LinkList.new : LinkList (LinkList Nat))).list
      = [] ∧
    ((LinkList.combinations (LinkList.of_two (LinkList.of_one (1 : Nat))
        LinkList.new)).list.map (fun e => e.list)) = [[1]] := by
  constructor
  · have hperm := LinkList.combinations_perm
      (LinkList.new : LinkList (LinkList Nat))
    simp only [LinkList.new_list, List.map_nil, List.foldl_nil] at hperm
    exact List.map_eq_nil_iff.mp hperm.eq_nil
  · have hperm := LinkList.combinations_perm
      (LinkList.of_two (LinkList.of_one (1 : Nat)) LinkList.new)
    have hl : (LinkList.of_two (LinkList.of_one (1 : Nat))
        LinkList.new).list.map (fun e => e.list) = [[1], []] := by decide
    rw [hl] at hperm
    have hfold : ([[1], []] : List (List Nat)).foldl
        LinkList.combineStep [] = [[1]] := by decide
    rw [hfold] at hperm
    exact List.perm_singleton.mp hperm

/-- Witness for claim C8: for [[1,2],[3,4]] the combinations are a
permutation of the cartesian product and the cached length is 4. -/
theorem C8_cartesian_witness :
    (LinkList.nonemptyInnerLists (LinkList.of_two
      (LinkList.of_two (1 : Nat) 2) (LinkList.of_two 3 4))).isEmpty
        = false ∧
    (((LinkList.combinations (LinkList.of_two (LinkList.of_two (1 : Nat) 2)
        (LinkList.of_two 3 4))).list.map (fun e => e.list)).Perm
      (LinkList.cartesianSpec (LinkList.nonemptyInnerLists
        (LinkList.of_two (LinkList.of_two (1 : Nat) 2)
          (LinkList.of_two 3 4)))) ∧
    (LinkList.combinations (LinkList.of_two (LinkList.of_two (1 : Nat) 2)
        (LinkList.of_two 3 4))).len =
      ((LinkList.nonemptyInnerLists (LinkList.of_two
        (LinkList.of_two (1 : Nat) 2) (LinkList.of_two 3 4))).map
          List.length).prod) :=
  ⟨by decide, (C8_cartesian Nat _).2 (by decide)⟩

/-- Claim C10 (confirmed).  The cached size field equals the number of
nodes in the chain for every LinkList built by the public constructors,
and every listed operation preserves that invariant (for the nested
results of permute, fatten and combinations the inner lists satisfy it as
well), so len always returns the true element count. -/
theorem C10_size_invariant :
    (∀ (α : Type) (l : LinkList α), LinkList.sizeInv l →
      l.len = l.list.length) ∧
    (∀ (α : Type), LinkList.sizeInv (LinkList.new : LinkList α)) ∧
    (∀ (α : Type) (e : α), LinkList.sizeInv (LinkList.of_one e)) ∧
    (∀ (α : Type) (e e2 : α), LinkList.sizeInv (LinkList.of_two e e2)) ∧
    (∀ (α : Type) (e e2 e3 : α),
      LinkList.sizeInv (LinkList.of_three e e2 e3)) ∧
    (∀ (α : Type) (e e2 e3 e4 : α),
      LinkList.sizeInv (LinkList.of_four e e2 e3 e4)) ∧
    (∀ (α : Type) (l : LinkList α) (e : α), LinkList.sizeInv l →
      LinkList.sizeInv (l.insert e)) ∧
    (∀ (α : Type) (l : LinkList α) (i : Nat) (e : α), LinkList.sizeInv l →
      LinkList.sizeInv (l.insert_at i e)) ∧
    (∀ (α : Type) (l : LinkList α) (e : α), LinkList.sizeInv l →
      LinkList.sizeInv (l.append e)) ∧
    (∀ (α : Type) (l t : LinkList α), LinkList.sizeInv l →
      l.tail = some t → LinkList.sizeInv t) ∧
    (∀ (α : Type) (l : LinkList α), LinkList.sizeInv l →
      LinkList.sizeInv l.reverse) ∧
    (∀ (α : Type) (l other : LinkList α), LinkList.sizeInv l →
      LinkList.sizeInv other → LinkList.sizeInv (l.concat other)) ∧
    (∀ (α : Type) (l : LinkList α) (i : Nat), LinkList.sizeInv l →
      LinkList.sizeInv (l.remove_at i)) ∧
    (∀ (α : Type) (l : LinkList α) (i j : Nat), LinkList.sizeInv l →
      LinkList.sizeInv (l.swap i j)) ∧
    (∀ (α : Type) (fuel : Nat) (l : LinkList α), LinkList.sizeInv l →
      LinkList.sizeInv (LinkList.permuteF fuel l) ∧
        ∀ e ∈ (LinkList.permuteF fuel l).list, LinkList.sizeInv e) ∧
    (∀ (α β : Type) (f : α → β) (l : LinkList α), LinkList.sizeInv l →
      LinkList.sizeInv (l.map f)) ∧
    (∀ (α : Type) (p : α → Bool) (l : LinkList α), LinkList.sizeInv l →
      LinkList.sizeInv (l.filter p)) ∧
    (∀ (α : Type) (l : LinkList α), LinkList.sizeInv l.fatten ∧
      ∀ e ∈ l.fatten.list, LinkList.sizeInv e) ∧
    (∀ (α : Type) (l : LinkList (LinkList α)),
      (∀ e ∈ l.list, LinkList.sizeInv e) → LinkList.sizeInv l.flatten) ∧
    (∀ (α : Type) (xss : LinkList (LinkList α)),
      LinkList.sizeInv (LinkList.combinations xss) ∧
        ∀ e ∈ (LinkList.combinations xss).list, LinkList.sizeInv e) := by
  refine ⟨fun α l h => h, fun α => LinkList.sizeInv_new,
    fun α e => LinkList.sizeInv_insert LinkList.sizeInv_new e,
    fun α e e2 => LinkList.sizeInv_insert
      (LinkList.sizeInv_insert LinkList.sizeInv_new e2) e,
    fun α e e2 e3 => LinkList.sizeInv_insert (LinkList.sizeInv_insert
      (LinkList.sizeInv_insert LinkList.sizeInv_new e3) e2) e,
    fun α e e2 e3 e4 => LinkList.sizeInv_insert (LinkList.sizeInv_insert
      (LinkList.sizeInv_insert
        (LinkList.sizeInv_insert LinkList.sizeInv_new e4) e3) e2) e,
    fun α l e h => LinkList.sizeInv_insert h e,
    fun α l i e h => LinkList.sizeInv_insert_at h i e,
    fun α l e h => LinkList.sizeInv_append h e,
    fun α l t h ht => LinkList.sizeInv_tail h ht,
    fun α l h => LinkList.sizeInv_reverse h,
    fun α l other h1 h2 => LinkList.sizeInv_concat h1 h2,
    fun α l i h => LinkList.sizeInv_remove_at h i,
    fun α l i j h => LinkList.sizeInv_swap h i j,
    fun α fuel l h => LinkList.sizeInv_permuteF fuel l h,
    fun α β f l h => LinkList.sizeInv_map f h,
    fun α p l h => LinkList.sizeInv_filter p h,
    fun α l => LinkList.sizeInv_fatten l,
    fun α l hl => LinkList.sizeInv_flatten hl,
    fun α xss => LinkList.sizeInv_combinations xss⟩

/-- Witness for claim C10: the invariant facts applied at concrete lists
over Nat. -/
theorem C10_size_invariant_witness :
    LinkList.sizeInv (LinkList.of_three (1 : Nat) 2 3) ∧
    (LinkList.of_three (1 : Nat) 2 3).len =
      (LinkList.of_three (1 : Nat) 2 3).list.length ∧
    LinkList.sizeInv ((LinkList.of_three (1 : Nat) 2 3).insert_at 1 9) ∧
    LinkList.sizeInv ((LinkList.of_three (1 : Nat) 2 3).swap 0 2) ∧
    LinkList.sizeInv ((LinkList.of_three (1 : Nat) 2 3).concat
      (LinkList.of_two 4 5)) ∧
    LinkList.sizeInv ((LinkList.of_two (LinkList.of_two (1 : Nat) 2)
      (LinkList.of_one 3)).flatten) :=
  ⟨by decide,
   C10_size_invariant.1 Nat _ (by decide),
   C10_size_invariant.2.2.2.2.2.2.2.1 Nat _ 1 9 (by decide),
   C10_size_invariant.2.2.2.2.2.2.2.2.2.2.2.2.2.1 Nat _ 0 2 (by decide),
   C10_size_invariant.2.2.2.2.2.2.2.2.2.2.2.1 Nat _ _ (by decide) (by decide),
   C10_size_invariant.2.2.2.2.2.2.2.2.2.2.2.2.2.2.2.2.2.2.1 Nat _ (by decide)⟩

end ExprParser
